import Mathlib

/-!
# Verification of the retrieval-and-answer-synthesis pipeline

Shallow embedding of `scripts/answer_question.py` (together with the
configuration defaults of `config.py`) and proofs about the claims of the
specification.  Python strings are modelled as Lean `String`/`List Char`
(`len` = number of code points, as in Python 3), the Python float scores are
exact (every score is an integer multiple of 1/2, on which binary floating
point is exact; the embedding stores twice the score as a natural number),
the one non-exact float expression — the truncation threshold
`max_length * 0.7` — is modelled by explicit IEEE-754 double rounding
(`pyGtL07`), Python exceptions are modelled with `Except`, and the external
collaborators
(vector index, passage store, generation service) are modelled as explicit
inputs, mirroring the request/response values the code reads from them.
-/

/-- Characters treated as whitespace by Python's `str.strip` / `re` `\s`
(ASCII fragment, which is what the pipeline's inputs use). -/
def pyWs (c : Char) : Bool :=
  c = ' ' || c = '\t' || c = '\n' || c = '\r' || c = '\x0b' || c = '\x0c'

/-- `str.strip()`: drop whitespace from both ends. -/
def trimWs (l : List Char) : List Char :=
  ((l.dropWhile pyWs).reverse.dropWhile pyWs).reverse

/-- One pass of `re.sub(r'\s+', ' ', ·)`: every maximal run of whitespace
becomes a single `' '`.  The flag records whether the previous character was
part of a whitespace run already emitted. -/
def collapseAux : Bool → List Char → List Char
  | _, [] => []
  | prev, c :: t =>
    if pyWs c then
      if prev then collapseAux true t else ' ' :: collapseAux true t
    else c :: collapseAux false t

/-- `re.sub(r'\s+', ' ', s)` (no strip). -/
def collapseWs (l : List Char) : List Char := collapseAux false l

/-- `re.sub(r'\s+', ' ', s.strip())`, as in `preprocess_text` and
`post_process_answer`. -/
def squeezeWs (l : List Char) : List Char := collapseAux false (trimWs l)

/-- The chained `str.replace` calls of `preprocess_text`, per character:
typographic quotes and dashes become their ASCII equivalents (the em dash
becomes two hyphens). -/
def replUni (c : Char) : List Char :=
  if c = '“' then ['"']
  else if c = '”' then ['"']
  else if c = '‘' then ['\'']
  else if c = '’' then ['\'']
  else if c = '–' then ['-']
  else if c = '—' then ['-', '-']
  else [c]

/-- All six `replace` calls of `preprocess_text` (their search characters and
replacement texts are disjoint, so sequential whole-string replacement equals
a single per-character pass). -/
def replaceUni (l : List Char) : List Char :=
  l.foldr (fun c acc => replUni c ++ acc) []

/-- Sentence-terminating punctuation `.`, `!`, `?`. -/
def isPunc (c : Char) : Bool := c = '.' || c = '!' || c = '?'

/-- `re.sub(r'[.!?]{2,}', '.', ·)`: every maximal run of two or more
sentence-terminating punctuation marks becomes a single `'.'`; isolated marks
are kept.  The flag records that we are inside a run whose replacement has
already been emitted. -/
def cpAux : Bool → List Char → List Char
  | _, [] => []
  | inRun, c :: t =>
    if isPunc c then
      if inRun then cpAux true t
      else
        match t with
        | [] => [c]
        | d :: _ => if isPunc d then '.' :: cpAux true t else c :: cpAux false t
    else c :: cpAux false t

/-- `re.sub(r'[.!?]{2,}', '.', s)`. -/
def collapsePunc (l : List Char) : List Char := cpAux false l

/-- `preprocess_text` of `answer_question.py`: collapse whitespace (after
stripping), replace typographic quotes/dashes, collapse punctuation runs. -/
def preprocess_text (s : String) : String :=
  String.mk (collapsePunc (replaceUni (squeezeWs s.toList)))

/-- `needle` occurs at the start of `hay` (`str.startswith`). -/
def leadsWith : List Char → List Char → Bool
  | [], _ => true
  | _ :: _, [] => false
  | a :: as, b :: bs => a = b && leadsWith as bs

/-- Python's `needle in hay` substring test. -/
def hasSub (needle : List Char) : List Char → Bool
  | [] => leadsWith needle []
  | c :: t => leadsWith needle (c :: t) || hasSub needle t

/-- `p.startswith`-style test on `String`s. -/
def strLeads (p s : String) : Bool := leadsWith p.toList s.toList

/-- `s.endswith(('.', '!', '?'))`. -/
def endsPunc (s : String) : Bool :=
  match s.toList.getLast? with
  | some c => isPunc c
  | none => false

/-- The `redundant_phrases` list of `post_process_answer`, in source order. -/
def redundantPhrases : List String :=
  ["Based on the provided context,",
   "According to the context,",
   "From the context,",
   "The context shows that",
   "Based on the information provided,"]

/-- `post_process_answer` of `answer_question.py`: collapse whitespace, append
a final `'.'` when the (non-empty) text does not end in `.`/`!`/`?`, then
strip the first matching boilerplate lead-in phrase and re-strip. -/
def post_process_answer (answer : String) : String :=
  let a := String.mk (squeezeWs answer.toList)
  let a := if a = "" then a else if endsPunc a then a else a ++ "."
  match redundantPhrases.find? (fun p => strLeads p a) with
  | some p => String.mk (trimWs (a.toList.drop p.length))
  | none => a

/-- Lower-casing (`str.lower()`, ASCII fragment as used by the pipeline). -/
def pyLower (s : String) : String := String.mk (s.toList.map Char.toLower)

/-- A `\w` word character (`[A-Za-z0-9_]`, the ASCII fragment of `\w`). -/
def wordChar (c : Char) : Bool := c.isAlphanum || c = '_'

/-- Tokenizer accumulator for `re.findall(r'\b\w+\b', ·)`. -/
def tokensAux : List Char → List Char → List String
  | acc, [] => if acc = [] then [] else [String.mk acc.reverse]
  | acc, c :: t =>
    if wordChar c then tokensAux (c :: acc) t
    else if acc = [] then tokensAux [] t
    else String.mk acc.reverse :: tokensAux [] t

/-- `re.findall(r'\b\w+\b', s)`: the maximal runs of word characters. -/
def wordTokens (s : String) : List String := tokensAux [] s.toList

/-- The fixed `stop_words` set of `generate_improved_answer`, in source
order. -/
def stopWords : List String :=
  ["what", "how", "why", "when", "where", "is", "are", "the", "a", "an",
   "and", "or", "but", "in", "on", "at", "to", "for", "of", "with", "by"]

/-- `list(set(re.findall(r'\b\w+\b', question.lower())) - stop_words)`.
CPython enumerates a `set` of strings in an order that depends on the
per-process hash seed; the embedding fixes one deterministic enumeration
(duplicate removal over the token list) and all scoring definitions are
additionally parameterised over the enumeration, which is what the
determinism claims are about. -/
def questionKeywords (q : String) : List String :=
  ((wordTokens (pyLower q)).filter (fun w => !stopWords.contains w)).dedup

/-- `' '.join(list(question_words)[i:j])` for the window `[i, j)`. -/
def phraseAt (qWords : List String) (i j : Nat) : String :=
  " ".intercalate ((qWords.drop i).take (j - i))

/-- The `exact_phrases` double loop of `generate_improved_answer`:
`for i in range(n): for j in range(i+1, n+1): if phrase in chunk: count`. -/
def exactPhrases (qWords : List String) (chunkLower : List Char) : Nat :=
  ((List.range qWords.length).map (fun i =>
    ((List.range (qWords.length + 1)).filter (fun j =>
      decide (i < j) && hasSub (phraseAt qWords i j).toList chunkLower)).length)).sum

/-- Twice the per-chunk `total_score` of `generate_improved_answer`.  Python
computes `word_overlap + phrase_matches * 0.5 + exact_phrases * 2` in binary
floating point; every such value is an integer multiple of 1/2 on which float
arithmetic and comparisons are exact, so the embedding stores twice the score
as a natural number — an order- and sign-preserving encoding (`scoreChunk`
recovers the float value). -/
def scoreChunk2 (qWords : List String) (chunk : String) : Nat :=
  let chunkLower := pyLower chunk
  let cl := chunkLower.toList
  let chunkWords := wordTokens chunkLower
  let word_overlap := (qWords.inter chunkWords).length
  let phrase_matches := (qWords.filter (fun w => hasSub w.toList cl)).length
  let exact_phrases := exactPhrases qWords cl
  2 * word_overlap + phrase_matches + 4 * exact_phrases

/-- The per-chunk `total_score` of `generate_improved_answer` as the exact
value of the Python float: `word_overlap + phrase_matches * 0.5 +
exact_phrases * 2`. -/
def scoreChunk (qWords : List String) (chunk : String) : ℚ :=
  (scoreChunk2 qWords chunk : ℚ) / 2

/-- Descending-by-score order used by
`scored_chunks.sort(key=lambda x: x[0], reverse=True)` (on the doubled
scores, which orders exactly like the float scores). -/
def rDesc (a b : Nat × String) : Prop := b.1 ≤ a.1

instance : DecidableRel rDesc := fun a b => inferInstanceAs (Decidable (b.1 ≤ a.1))

instance : IsTotal (Nat × String) rDesc := ⟨fun a b => le_total b.1 a.1⟩

instance : IsTrans (Nat × String) rDesc := ⟨fun _ _ _ h₁ h₂ => le_trans h₂ h₁⟩

/-- `scored_chunks` before sorting: `(total_score, chunk)` in input order
(doubled scores). -/
def scoredChunks (qWords : List String) (chunks : List String) : List (Nat × String) :=
  chunks.map (fun c => (scoreChunk2 qWords c, c))

/-- `scored_chunks.sort(key=lambda x: x[0], reverse=True)`: CPython's sort is
stable, and `reverse=True` flips the comparison while keeping stability, which
is exactly insertion sort by `rDesc`. -/
def rankedChunks (qWords : List String) (chunks : List String) : List (Nat × String) :=
  List.insertionSort rDesc (scoredChunks qWords chunks)

/-- `[(score, chunk) for score, chunk in scored_chunks[:4] if score > 0]`
(`score > 0` on the float scores is `0 < ·` on the doubled scores). -/
def keptChunks (qWords : List String) (chunks : List String) : List (Nat × String) :=
  ((rankedChunks qWords chunks).take 4).filter (fun p => decide (0 < p.1))

/-- Configuration values read from `config.py` (environment with defaults). -/
structure Config where
  TOP_K_CHUNKS : Nat
  RELEVANCE_THRESHOLD : ℚ
  MIN_CHUNK_LENGTH : Nat
  MAX_ANSWER_LENGTH : Nat

/-- The defaults of `config.py` (the relevance threshold 1.5 is written in
reduced-fraction constructor form so that comparisons against it compute). -/
def cfgDefault : Config :=
  { TOP_K_CHUNKS := 12, RELEVANCE_THRESHOLD := ⟨3, 2, by decide, by decide⟩,
    MIN_CHUNK_LENGTH := 100, MAX_ANSWER_LENGTH := 800 }

/-- `truncated.rfind(c)`: index of the last occurrence, `-1` if absent. -/
def rfindChar (l : List Char) (c : Char) : Int :=
  match l with
  | [] => -1
  | a :: t =>
    let r := rfindChar t c
    if 0 ≤ r then r + 1 else if a = c then 0 else -1

/-- Number of binary digits of `n` (`0` for `n = 0`), computed with a fixed
fuel of 4096 halvings — exact for every `n < 2 ^ 4096, far beyond any
reachable configuration value. -/
def bitLenAux : Nat → Nat → Nat
  | 0, _ => 0
  | fuel + 1, n => if n = 0 then 0 else bitLenAux fuel (n / 2) + 1

/-- See `bitLenAux`. -/
def bitLen (n : Nat) : Nat := bitLenAux 4096 n

/-- The numerator over `2 ^ 52` of the IEEE-754 double nearest to the Python
literal `0.7` (`(0.7).as_integer_ratio() == (3152519739159347, 2 ** 52)`). -/
def fl07num : Nat := 3152519739159347

/-- The numerator over `2 ^ 52` of the double `L * 0.7` as Python computes it
for an `int` `L`: the exact product `L · fl07num / 2 ^ 52` rounded to a
53-bit significand, to nearest, ties to even (exactly the IEEE-754 result
whenever `L < 2 ^ 53`, where int-to-double conversion is itself exact). -/
def roundMantissa (L : Nat) : Nat :=
  let N := L * fl07num
  let k := bitLen N
  if k ≤ 53 then N
  else
    let shift := k - 53
    let m0 := N / 2 ^ shift
    let r := N % 2 ^ shift
    let half := 2 ^ (shift - 1)
    let m := if half < r ∨ (r = half ∧ m0 % 2 = 1) then m0 + 1 else m0
    m * 2 ^ shift

/-- Python's `sentence_end > max_length * 0.7`: the right-hand side is the
IEEE-754 double `roundMantissa L / 2 ^ 52`, and Python compares an `int`
against a `float` exactly, so the comparison is
`se * 2 ^ 52 > roundMantissa L`.  A negative `sentence_end` (an `rfind`
miss) is never greater than the non-negative product. -/
def pyGtL07 (se : Int) (L : Nat) : Bool :=
  match se with
  | .ofNat p => decide (roundMantissa L < p * 2 ^ 52)
  | .negSucc _ => false

/-- The length-limiting step of `generate_improved_answer`: keep the text if
it fits in `L` characters, otherwise cut at the last sentence end inside the
first `L` characters when that end lies past 70% of the limit (the
`sentence_end > max_length * 0.7` float comparison, modelled exactly by
`pyGtL07`), and otherwise hard-cut at `L` and append `"..."`. -/
def truncateText (L : Nat) (c : String) : String :=
  if L < c.length then
    let cl := c.toList
    let truncated := cl.take L
    let last_period := rfindChar truncated '.'
    let last_exclamation := rfindChar truncated '!'
    let last_question := rfindChar truncated '?'
    let sentence_end := max (max last_period last_exclamation) last_question
    if pyGtL07 sentence_end L then
      String.mk (cl.take (sentence_end + 1).toNat)
    else
      String.mk (cl.take L) ++ "..."
  else c

/-- Message returned by `generate_improved_answer` for an empty passage
list. -/
def noInfoMsg : String :=
  "I couldn't find any relevant information in the uploaded documents to answer your question."

/-- Message returned by `generate_improved_answer` when no passage scores
positively. -/
def noSpecificMsg : String :=
  "I couldn't find specific information related to your question in the uploaded documents."

/-- The tail of `generate_improved_answer` once `relevant_chunks` is
non-empty: join with spaces, collapse whitespace, truncate, prefix the fixed
lead-in and post-process. -/
def finishImproved (cfg : Config) (relevant : List String) : String :=
  let combined := String.mk (collapseWs (" ".intercalate relevant).toList)
  let truncated := truncateText cfg.MAX_ANSWER_LENGTH combined
  post_process_answer ("Based on the available information: " ++ truncated)

/-- `generate_improved_answer`, parameterised over the enumeration `qWords` of
the question-keyword set (see `questionKeywords`). -/
def generateImprovedAnswerW (cfg : Config) (qWords : List String)
    (cleaned_chunks : List String) : String :=
  if cleaned_chunks = [] then noInfoMsg
  else
    let relevant := (keptChunks qWords cleaned_chunks).map (·.2)
    if relevant = [] then noSpecificMsg
    else finishImproved cfg relevant

/-- `generate_improved_answer` with the embedding's fixed keyword
enumeration. -/
def generate_improved_answer (cfg : Config) (question : String)
    (cleaned_chunks : List String) : String :=
  generateImprovedAnswerW cfg (questionKeywords question) cleaned_chunks

/-- Python list indexing `chunks[i]` for an `int` index: negative indices wrap
once, anything further out raises `IndexError`. -/
def pyGetStr (l : List String) (i : Int) : Except String String :=
  if 0 ≤ i then
    if h : i.toNat < l.length then .ok (l.get ⟨i.toNat, h⟩)
    else .error "list index out of range"
  else
    let j := (l.length : Int) + i
    if 0 ≤ j then
      if h : j.toNat < l.length then .ok (l.get ⟨j.toNat, h⟩)
      else .error "list index out of range"
    else .error "list index out of range"

/-- Ascending-by-distance order used by
`relevant_chunks.sort(key=lambda x: x[1])`. -/
def rAsc (a b : String × ℚ) : Prop := a.2 ≤ b.2

instance : DecidableRel rAsc := fun a b => inferInstanceAs (Decidable (a.2 ≤ b.2))

instance : IsTotal (String × ℚ) rAsc := ⟨fun a b => le_total a.2 b.2⟩

instance : IsTrans (String × ℚ) rAsc := ⟨fun _ _ _ h₁ h₂ => le_trans h₁ h₂⟩

/-- The accumulation loop of `get_relevant_context` over the `(id, distance)`
pairs returned by the vector index: ids at or beyond the passage-store length
are skipped, passage text is fetched (Python list indexing) and normalized,
and only entries with `distance < RELEVANCE_THRESHOLD` are kept. -/
def collectRel (cfg : Config) : List (Int × ℚ) → List String →
    Except String (List (String × ℚ))
  | [], _ => .ok []
  | (i, d) :: rest, chunks =>
    if i < (chunks.length : Int) then
      match pyGetStr chunks i with
      | .error e => .error e
      | .ok content =>
        let content := preprocess_text content
        match collectRel cfg rest chunks with
        | .error e => .error e
        | .ok l => .ok (if d < cfg.RELEVANCE_THRESHOLD then (content, d) :: l else l)
    else collectRel cfg rest chunks

/-- `get_relevant_context` up to dropping distances: filter by threshold and
sort ascending by distance (CPython's stable sort = insertion sort by
`rAsc`).  The question embedding and the index search are external
collaborators; `neighbors` is the `(id, distance)` list they return. -/
def retrievePairs (cfg : Config) (neighbors : List (Int × ℚ))
    (chunks : List String) : Except String (List (String × ℚ)) :=
  match collectRel cfg neighbors chunks with
  | .error e => .error e
  | .ok l => .ok (List.insertionSort rAsc l)

/-- `get_relevant_context`: the sorted passage texts, distances dropped. -/
def get_relevant_context (cfg : Config) (neighbors : List (Int × ℚ))
    (chunks : List String) : Except String (List String) :=
  match retrievePairs cfg neighbors chunks with
  | .error e => .error e
  | .ok l => .ok (l.map Prod.fst)

/-- The observable behaviour of the external generation service during one
run: whether `import requests` succeeded, the model list from a successful
`/api/tags` call (`none` covers both a non-200 status and a transport
failure), and the `response` field of a successful `/api/generate` call
(`none` covers a non-200 status, a transport failure and a timeout). -/
structure OllamaWorld where
  requestsOk : Bool
  tags : Option (List String)
  genResp : Option String

/-- `check_ollama_availability`: requires the `requests` import, a successful
tags call, and at least one model whose name contains `"mistral"`
case-insensitively. -/
def check_ollama_availability (w : OllamaWorld) : Bool :=
  w.requestsOk &&
    match w.tags with
    | none => false
    | some ms => ms.any (fun m => hasSub "mistral".toList (pyLower m).toList)

/-- First model of `ms` whose lower-cased name contains `pat`. -/
def firstMatch (pat : String) (ms : List String) : Option String :=
  ms.find? (fun m => hasSub pat.toList (pyLower m).toList)

/-- The `model_priorities` scan of `generate_ollama_answer`: first priority
pattern with a match wins, first matching model is taken. -/
def pickByPriority : List String → List String → Option String
  | [], _ => none
  | p :: ps, ms =>
    match firstMatch p ms with
    | some m => some m
    | none => pickByPriority ps ms

/-- Model selection of `generate_ollama_answer`: the fixed priority list, then
any model containing `"mistral"`. -/
def pickModel (ms : List String) : Option String :=
  match pickByPriority ["llama3.2:1b", "mistral:7b", "mistral:latest"] ms with
  | some m => some m
  | none => firstMatch "mistral" ms

/-- `generate_ollama_answer`: `none` when no answer was produced (tags call
failed, no model selected, or the generate call failed); the `Bool` records
whether the `/api/generate` POST was issued.  Every failure is caught inside
the function, so it never raises. -/
def generate_ollama_answer (w : OllamaWorld) : Option String × Bool :=
  match w.tags with
  | none => (none, false)
  | some ms =>
    match pickModel ms with
    | none => (none, false)
    | some _ =>
      match w.genResp with
      | none => (none, true)
      | some resp => (some (post_process_answer (String.mk (trimWs resp.toList))), true)

/-- Message returned by `generate_answer` when no cleaned chunk is long
enough. -/
def insufficientMsg : String :=
  "I couldn't find sufficient relevant information in the uploaded documents to answer your question."

/-- The strict minimum-length filter at the head of `generate_answer`. -/
def cleanedChunks (cfg : Config) (context_chunks : List String) : List String :=
  (context_chunks.map preprocess_text).filter
    (fun t => decide (cfg.MIN_CHUNK_LENGTH < t.length))

/-- `generate_answer`: length-filter the chunks, try Ollama when available,
fall back to the extractive answer.  The `Bool` records whether a
`/api/generate` call was made. -/
def generate_answerT (cfg : Config) (w : OllamaWorld) (question : String)
    (context_chunks : List String) : String × Bool :=
  let cleaned := cleanedChunks cfg context_chunks
  if cleaned = [] then (insufficientMsg, false)
  else
    if check_ollama_availability w then
      match generate_ollama_answer w with
      | (some a, called) =>
        if a = "" then (generate_improved_answer cfg question cleaned, called)
        else (a, called)
      | (none, called) => (generate_improved_answer cfg question cleaned, called)
    else (generate_improved_answer cfg question cleaned, false)

/-- `generate_answer`'s returned string. -/
def generate_answer (cfg : Config) (w : OllamaWorld) (question : String)
    (context_chunks : List String) : String :=
  (generate_answerT cfg w question context_chunks).1

/-- One line of program output, with its channel and shape.  `json…` lines are
produced by `print(json.dumps(...))` and are well-formed single JSON objects
with the given field; `diag` is a plain diagnostic line. -/
inductive OutLine where
  | jsonAnswer (s : String)
  | jsonErr (s : String)
  | diag (s : String)
deriving DecidableEq, Repr

/-- The diagnostic printed (to stdout — `print` without `file=sys.stderr`)
when `import requests` fails at module load. -/
def reqWarnMsg : String :=
  "Requests library not available. Install with: pip install requests"

/-- The external state one invocation of the script observes. -/
structure World where
  ollama : OllamaWorld
  loadOk : Except String Unit
  neighbors : List (Int × ℚ)
  chunks : List String

/-- One invocation of the script: module import (including the stdout warning
when `requests` is missing), the `argv` check, `load_embeddings`,
`get_relevant_context` and `generate_answer`, with every failure in the `try`
block reported as an error JSON and exit code 1.  Returns the list of lines
written to stdout and the exit code; stderr diagnostics are not modelled. -/
def mainRun (cfg : Config) (w : World) (argv : List String) : List OutLine × Nat :=
  let importOut : List OutLine :=
    if w.ollama.requestsOk then [] else [.diag reqWarnMsg]
  if argv.length ≠ 2 then
    (importOut ++ [.jsonErr "Question argument required"], 1)
  else
    let question := argv.getD 1 ""
    match w.loadOk with
    | .error e => (importOut ++ [.jsonErr e], 1)
    | .ok _ =>
      match get_relevant_context cfg w.neighbors w.chunks with
      | .error e => (importOut ++ [.jsonErr e], 1)
      | .ok relevant =>
        let answer :=
          if relevant = [] then
            "No relevant information found in the uploaded documents."
          else generate_answer cfg w.ollama question relevant
        (importOut ++ [.jsonAnswer answer], 0)

/-- Specification-side `word_overlap`: the number of question keywords that
occur as whole words (word tokens) of the lower-cased passage. -/
def specWordOverlap (qWords : List String) (chunk : String) : Nat :=
  qWords.countP (fun w => (wordTokens (pyLower chunk)).contains w)

/-- Specification-side `phrase_matches`: the number of question keywords that
occur as case-insensitive substrings of the passage. -/
def specPhraseMatches (qWords : List String) (chunk : String) : Nat :=
  qWords.countP (fun w => hasSub w.toList (pyLower chunk).toList)

/-- Specification-side `exact_phrase_bonus`: the number of pairs of
start/end indices `i < j` over the enumerated keyword list whose space-joined
window is a substring of the lower-cased passage. -/
def specExactPhrases (qWords : List String) (chunk : String) : Nat :=
  (((List.range qWords.length).product (List.range (qWords.length + 1))).filter
    (fun ij => decide (ij.1 < ij.2) &&
      hasSub (phraseAt qWords ij.1 ij.2).toList (pyLower chunk).toList)).length

/-- Specification-side "last index of `.`, `!` or `?`" in a character list:
`some p` with `p` the largest such index, `none` if there is none. -/
def lastPuncIdx : List Char → Option Nat
  | [] => none
  | a :: t =>
    match lastPuncIdx t with
    | some k => some (k + 1)
    | none => if isPunc a then some 0 else none

/-- Whitespace normal form, relative to a preceding character `p`: every
whitespace character is `' '` and never follows a whitespace character, and
the list does not end in whitespace. -/
def wsOkAux : Char → List Char → Bool
  | p, [] => !pyWs p
  | p, c :: t => (!pyWs c || (c = ' ' && !pyWs p)) && wsOkAux c t

/-- Whitespace normal form of a standalone list: additionally the list does
not start with whitespace. -/
def wsOk : List Char → Bool
  | [] => true
  | c :: t => !pyWs c && wsOkAux c t

/-- No two adjacent sentence-punctuation marks, relative to a preceding
character `p`. -/
def puncOkAux : Char → List Char → Bool
  | _, [] => true
  | p, c :: t => (!isPunc p || !isPunc c) && puncOkAux c t

/-- No two adjacent sentence-punctuation marks. -/
def puncOk (l : List Char) : Bool := puncOkAux ' ' l

/-- A character rewritten by the `replace` chain of `preprocess_text`. -/
def uniTarget (c : Char) : Bool :=
  c = '“' || c = '”' || c = '‘' || c = '’' || c = '–' || c = '—'

/-- No characters rewritten by the `replace` chain remain. -/
def uniFree (l : List Char) : Bool := l.all (fun c => !uniTarget c)

/-- The first two statements of `post_process_answer` (whitespace collapse
and final-punctuation repair), named for the proofs below. -/
def postA1 (x : String) : String :=
  let a := String.mk (squeezeWs x.toList)
  if a = "" then a else if endsPunc a then a else a ++ "."

/-- The head of the list is not sentence punctuation (or the list is
empty). -/
def headNotPunc : List Char → Bool
  | [] => true
  | c :: _ => !isPunc c

/-! ## Whitespace normal form -/

theorem wsOkAux_dep (l : List Char) : ∀ p q : Char, pyWs p = pyWs q →
    wsOkAux p l = wsOkAux q l := by
  induction l with
  | nil => intro p q h; simp [wsOkAux, h]
  | cons c t _ => intro p q h; simp [wsOkAux, h]

theorem getLast_nonWs_of_wsOkAux (l : List Char) : ∀ p c, wsOkAux p l = true →
    l.getLast? = some c → pyWs c = false := by
  induction l with
  | nil => intro p c _ h; simp at h
  | cons a t ih =>
    intro p c h hl
    rw [wsOkAux, Bool.and_eq_true] at h
    match t, hl with
    | [], hl =>
      simp at hl
      subst hl
      simpa [wsOkAux] using h.2
    | b :: t', hl =>
      rw [List.getLast?_cons_cons] at hl
      exact ih a c h.2 hl

theorem dropWhile_eq_self_of_head (l : List Char) (p : Char → Bool)
    (h : ∀ c, l.head? = some c → p c = false) : l.dropWhile p = l := by
  cases l with
  | nil => rfl
  | cons c t => simp [List.dropWhile_cons, h c rfl]

theorem trimWs_eq_self (l : List Char) (h : wsOk l = true) : trimWs l = l := by
  cases l with
  | nil => rfl
  | cons c t =>
    rw [wsOk, Bool.and_eq_true] at h
    have h1 : (c :: t).dropWhile pyWs = c :: t := by
      refine dropWhile_eq_self_of_head _ _ ?_
      intro d hd
      simp at hd
      subst hd
      simpa using h.1
    have h2 : (c :: t).reverse.dropWhile pyWs = (c :: t).reverse := by
      refine dropWhile_eq_self_of_head _ _ ?_
      intro d hd
      rw [List.head?_reverse] at hd
      exact getLast_nonWs_of_wsOkAux (c :: t) c d (by rw [wsOkAux]; simp [h.1, h.2]) hd
    rw [trimWs, h1, h2, List.reverse_reverse]

theorem collapseAux_eq_self (l : List Char) : ∀ p, wsOkAux p l = true →
    collapseAux (pyWs p) l = l := by
  induction l with
  | nil => intro p _; cases pyWs p <;> rfl
  | cons c t ih =>
    intro p h
    rw [wsOkAux, Bool.and_eq_true] at h
    by_cases hc : pyWs c = true
    · have hcs : c = ' ' := by
        rcases (Bool.or_eq_true_iff.mp h.1) with h' | h'
        · rw [hc] at h'; simp at h'
        · exact of_decide_eq_true (Bool.and_eq_true_iff.mp h').1
      have hp : pyWs p = false := by
        rcases (Bool.or_eq_true_iff.mp h.1) with h' | h'
        · rw [hc] at h'; simp at h'
        · simpa using (Bool.and_eq_true_iff.mp h').2
      have ht : collapseAux true t = t := by
        have h2 := ih c h.2
        rwa [hc] at h2
      rw [hp, collapseAux, if_pos hc, if_neg (by simp), ht, hcs]
    · rw [Bool.not_eq_true] at hc
      have ht : collapseAux false t = t := by
        have h2 := ih c h.2
        rwa [hc] at h2
      cases hpw : pyWs p <;> rw [collapseAux, if_neg (by simp [hc]), ht]

theorem squeezeWs_eq_self (l : List Char) (h : wsOk l = true) : squeezeWs l = l := by
  rw [squeezeWs, trimWs_eq_self l h]
  cases l with
  | nil => rfl
  | cons c t =>
    rw [wsOk, Bool.and_eq_true] at h
    have h2 := collapseAux_eq_self t c h.2
    have hc : pyWs c = false := by simpa using h.1
    rw [collapseAux, if_neg (by simp [hc])]
    rw [hc] at h2
    rw [h2]

/-- `getLast?`-side precondition: the list does not end in whitespace. -/
def lastOkWs (l : List Char) : Prop := ∀ c, l.getLast? = some c → pyWs c = false

theorem lastOkWs_tail (c : Char) (t : List Char) (h : lastOkWs (c :: t)) :
    lastOkWs t := by
  intro d hd
  refine h d ?_
  cases t with
  | nil => simp at hd
  | cons e t' => rwa [List.getLast?_cons_cons]

theorem collapseAux_wsOk (m : List Char) : lastOkWs m →
    ((∀ p, pyWs p = false → wsOkAux p (collapseAux false m) = true) ∧
      (m ≠ [] → ∀ p, wsOkAux p (collapseAux true m) = true)) := by
  induction m with
  | nil =>
    intro _
    refine ⟨fun p hp => ?_, fun h => absurd rfl h⟩
    simpa [collapseAux, wsOkAux] using hp
  | cons c t ih =>
    intro hlast
    have ihp := ih (lastOkWs_tail c t hlast)
    by_cases hc : pyWs c = true
    · have htne : t ≠ [] := by
        intro h0
        subst h0
        have := hlast c (by simp)
        rw [hc] at this; cases this
      constructor
      · intro p hp
        rw [collapseAux, if_pos hc, if_neg (by simp)]
        rw [wsOkAux, Bool.and_eq_true]
        exact ⟨by simp [hp], ihp.2 htne ' '⟩
      · intro _ p
        rw [collapseAux, if_pos hc, if_pos rfl]
        exact ihp.2 htne p
    · rw [Bool.not_eq_true] at hc
      have hcons : ∀ p, wsOkAux p (c :: collapseAux false t) = true := by
        intro p
        rw [wsOkAux, Bool.and_eq_true]
        refine ⟨by simp [hc], ?_⟩
        exact ihp.1 c hc
      constructor
      · intro p _
        rw [collapseAux, if_neg (by simp [hc])]
        exact hcons p
      · intro _ p
        rw [collapseAux, if_neg (by simp [hc])]
        exact hcons p

theorem head_dropWhile_false (l : List Char) (p : Char → Bool) :
    ∀ c, (l.dropWhile p).head? = some c → p c = false := by
  induction l with
  | nil => intro c h; simp at h
  | cons a t ih =>
    intro c h
    rw [List.dropWhile_cons] at h
    split at h
    next hpa => exact ih c h
    next hpa =>
      simp at h
      subst h
      simpa using hpa

theorem getLast_dropWhile (z : List Char) (p : Char → Bool)
    (h : z.dropWhile p ≠ []) : (z.dropWhile p).getLast? = z.getLast? := by
  induction z with
  | nil => simp at h
  | cons a t ih =>
    rw [List.dropWhile_cons]
    rw [List.dropWhile_cons] at h
    split
    next hpa =>
      rw [if_pos hpa] at h
      have htne : t ≠ [] := by
        intro h0; subst h0; simp at h
      rw [ih h]
      cases t with
      | nil => exact absurd rfl htne
      | cons b t' => rw [List.getLast?_cons_cons]
    next hpa => rfl

theorem trimWs_head (l : List Char) : ∀ c, (trimWs l).head? = some c →
    pyWs c = false := by
  intro c h
  rw [trimWs, List.head?_reverse] at h
  set A := l.dropWhile pyWs with hA
  have hBne : A.reverse.dropWhile pyWs ≠ [] := by
    intro h0
    rw [h0] at h
    simp at h
  rw [getLast_dropWhile _ _ hBne, List.getLast?_reverse] at h
  exact head_dropWhile_false l pyWs c h

theorem trimWs_getLast (l : List Char) : lastOkWs (trimWs l) := by
  intro c h
  rw [trimWs, List.getLast?_reverse] at h
  exact head_dropWhile_false _ pyWs c h

theorem wsOk_squeezeWs (l : List Char) : wsOk (squeezeWs l) = true := by
  rw [squeezeWs]
  have hlast := trimWs_getLast l
  cases hm : trimWs l with
  | nil => rfl
  | cons c t =>
    rw [hm] at hlast
    have hc : pyWs c = false := trimWs_head l c (by rw [hm]; rfl)
    have hcw := collapseAux_wsOk t (lastOkWs_tail c t hlast)
    rw [collapseAux, if_neg (by simp [hc])]
    rw [wsOk, Bool.and_eq_true]
    exact ⟨by simp [hc], hcw.1 c hc⟩

theorem wsOkAux_append_nonws (l : List Char) : ∀ p c, wsOkAux p l = true →
    pyWs c = false → wsOkAux p (l ++ [c]) = true := by
  induction l with
  | nil =>
    intro p c _ hc
    simpa [wsOkAux] using ⟨Or.inl (by simp [hc]), by simp [hc]⟩
  | cons a t ih =>
    intro p c h hc
    rw [wsOkAux, Bool.and_eq_true] at h
    rw [List.cons_append, wsOkAux, Bool.and_eq_true]
    exact ⟨h.1, ih a c h.2 hc⟩

theorem wsOk_append_nonws (l : List Char) (c : Char) (h : wsOk l = true)
    (hc : pyWs c = false) : wsOk (l ++ [c]) = true := by
  cases l with
  | nil => simpa [wsOk, wsOkAux] using by simp [hc]
  | cons a t =>
    rw [wsOk, Bool.and_eq_true] at h
    rw [List.cons_append, wsOk, Bool.and_eq_true]
    exact ⟨h.1, wsOkAux_append_nonws t a c h.2 hc⟩

theorem trimWs_cons_ws (c : Char) (t : List Char) (hc : pyWs c = true) :
    trimWs (c :: t) = trimWs t := by
  rw [trimWs, trimWs, List.dropWhile_cons, if_pos hc]

theorem wsOk_trimWs_drop_aux (l : List Char) : ∀ p n, wsOkAux p l = true →
    wsOk (trimWs (l.drop n)) = true := by
  induction l with
  | nil => intro p n _; cases n <;> rfl
  | cons c t ih =>
    intro p n h
    rw [wsOkAux, Bool.and_eq_true] at h
    cases n with
    | succ n => exact ih c n h.2
    | zero =>
      rw [List.drop_zero]
      by_cases hc : pyWs c = true
      · cases t with
        | nil =>
          have h2 := h.2
          rw [wsOkAux, hc] at h2
          cases h2
        | cons d t' =>
          rw [trimWs_cons_ws c _ hc]
          exact ih c 0 h.2
      · rw [Bool.not_eq_true] at hc
        have hok : wsOk (c :: t) = true := by
          rw [wsOk, Bool.and_eq_true]
          exact ⟨by simp [hc], h.2⟩
        rw [trimWs_eq_self _ hok]
        exact hok

theorem wsOk_trimWs_drop (l : List Char) (n : Nat) (h : wsOk l = true) :
    wsOk (trimWs (l.drop n)) = true := by
  cases l with
  | nil => cases n <;> rfl
  | cons c t =>
    rw [wsOk, Bool.and_eq_true] at h
    cases n with
    | zero =>
      rw [List.drop_zero, trimWs_eq_self _ (by rw [wsOk, Bool.and_eq_true]; exact h)]
      rw [wsOk, Bool.and_eq_true]
      exact h
    | succ n => exact wsOk_trimWs_drop_aux t c n h.2

/-! ## The `replace` chain -/

theorem replUni_nonWs (c : Char) (hc : pyWs c = false) :
    ∀ d ∈ replUni c, pyWs d = false := by
  intro d hd
  rw [replUni] at hd
  split_ifs at hd <;> simp at hd <;> subst hd
  · rfl
  · rfl
  · rfl
  · rfl
  · rfl
  · rfl
  · exact hc

theorem replUni_ne_nil (c : Char) : replUni c ≠ [] := by
  rw [replUni]
  split_ifs <;> simp

theorem uniFree_replaceUni (l : List Char) : uniFree (replaceUni l) = true := by
  induction l with
  | nil => rfl
  | cons c t ih =>
    show uniFree (replUni c ++ replaceUni t) = true
    rw [uniFree, List.all_append, Bool.and_eq_true]
    refine ⟨?_, ih⟩
    rw [replUni]
    split_ifs with h1 h2 h3 h4 h5 h6
    · decide
    · decide
    · decide
    · decide
    · decide
    · decide
    · simp [uniTarget, h1, h2, h3, h4, h5, h6]

theorem replaceUni_eq_self (l : List Char) (h : uniFree l = true) :
    replaceUni l = l := by
  induction l with
  | nil => rfl
  | cons c t ih =>
    rw [uniFree, List.all_cons, Bool.and_eq_true] at h
    have hc : replUni c = [c] := by
      rw [replUni]
      split_ifs with h1 h2 h3 h4 h5 h6 <;>
        first
        | rfl
        | (subst_vars; exact absurd h.1 (by decide))
    show replUni c ++ replaceUni t = c :: t
    rw [hc, ih h.2, List.singleton_append]

theorem wsOkAux_replaceUni (l : List Char) : ∀ p, wsOkAux p l = true →
    wsOkAux p (replaceUni l) = true := by
  induction l with
  | nil => intro p h; exact h
  | cons c t ih =>
    intro p h
    rw [wsOkAux, Bool.and_eq_true] at h
    have iht := ih c h.2
    show wsOkAux p (replUni c ++ replaceUni t) = true
    by_cases hct : uniTarget c = true
    · -- rewritten characters are non-whitespace and replace `c` by a
      -- non-empty run of non-whitespace ASCII characters
      have hc : pyWs c = false := by
        rw [uniTarget] at hct
        rcases Bool.or_eq_true_iff.mp hct with h' | h'
        case' inl =>
          rcases Bool.or_eq_true_iff.mp h' with h' | h'
          case' inl =>
            rcases Bool.or_eq_true_iff.mp h' with h' | h'
            case' inl =>
              rcases Bool.or_eq_true_iff.mp h' with h' | h'
              case' inl =>
                rcases Bool.or_eq_true_iff.mp h' with h' | h'
        all_goals (rw [of_decide_eq_true h']; rfl)
      rw [uniTarget] at hct
      have iht' : ∀ q, pyWs q = false → wsOkAux q (replaceUni t) = true := by
        intro q hq
        rw [wsOkAux_dep _ q c (by rw [hq, hc])]
        exact iht
      rcases Bool.or_eq_true_iff.mp hct with h' | h'
      · rcases Bool.or_eq_true_iff.mp h' with h' | h'
        · rcases Bool.or_eq_true_iff.mp h' with h' | h'
          · rcases Bool.or_eq_true_iff.mp h' with h' | h'
            · rcases Bool.or_eq_true_iff.mp h' with h' | h'
              · rw [of_decide_eq_true h']
                show wsOkAux p ('"' :: replaceUni t) = true
                rw [wsOkAux, Bool.and_eq_true]
                exact ⟨Bool.or_eq_true_iff.mpr (Or.inl (by decide)), iht' '"' (by decide)⟩
              · rw [of_decide_eq_true h']
                show wsOkAux p ('"' :: replaceUni t) = true
                rw [wsOkAux, Bool.and_eq_true]
                exact ⟨Bool.or_eq_true_iff.mpr (Or.inl (by decide)), iht' '"' (by decide)⟩
            · rw [of_decide_eq_true h']
              show wsOkAux p ('\'' :: replaceUni t) = true
              rw [wsOkAux, Bool.and_eq_true]
              exact ⟨Bool.or_eq_true_iff.mpr (Or.inl (by decide)), iht' '\'' (by decide)⟩
          · rw [of_decide_eq_true h']
            show wsOkAux p ('\'' :: replaceUni t) = true
            rw [wsOkAux, Bool.and_eq_true]
            exact ⟨Bool.or_eq_true_iff.mpr (Or.inl (by decide)), iht' '\'' (by decide)⟩
        · rw [of_decide_eq_true h']
          show wsOkAux p ('-' :: replaceUni t) = true
          rw [wsOkAux, Bool.and_eq_true]
          exact ⟨Bool.or_eq_true_iff.mpr (Or.inl (by decide)), iht' '-' (by decide)⟩
      · rw [of_decide_eq_true h']
        show wsOkAux p ('-' :: '-' :: replaceUni t) = true
        rw [wsOkAux, Bool.and_eq_true]
        refine ⟨Bool.or_eq_true_iff.mpr (Or.inl (by decide)), ?_⟩
        rw [wsOkAux, Bool.and_eq_true]
        exact ⟨Bool.or_eq_true_iff.mpr (Or.inl (by decide)), iht' '-' (by decide)⟩
    · have hc1 : replUni c = [c] := by
        rw [uniTarget] at hct
        simp at hct
        rw [replUni]
        split_ifs with h1 h2 h3 h4 h5 h6 <;> first | rfl | (exact absurd (by assumption) (by tauto))
      rw [hc1, List.singleton_append, wsOkAux, Bool.and_eq_true]
      exact ⟨h.1, iht⟩

theorem wsOk_replaceUni (l : List Char) (h : wsOk l = true) :
    wsOk (replaceUni l) = true := by
  cases l with
  | nil => rfl
  | cons c t =>
    rw [wsOk, Bool.and_eq_true] at h
    have hc : pyWs c = false := by simpa using h.1
    have haux : wsOkAux c (replaceUni t) = true := wsOkAux_replaceUni t c h.2
    show wsOk (replUni c ++ replaceUni t) = true
    have hall := replUni_nonWs c hc
    cases hrc : replUni c with
    | nil => exact absurd hrc (replUni_ne_nil c)
    | cons d ds =>
      have hd : pyWs d = false := hall d (by rw [hrc]; exact List.mem_cons_self d ds)
      rw [List.cons_append, wsOk, Bool.and_eq_true]
      refine ⟨by simp [hd], ?_⟩
      -- the remaining characters of `replUni c` are non-whitespace as well
      have : ∀ ds' p, (∀ e ∈ ds', pyWs e = false) → pyWs p = false →
          wsOkAux p (ds' ++ replaceUni t) = true := by
        intro ds'
        induction ds' with
        | nil =>
          intro p _ hp
          rw [List.nil_append, wsOkAux_dep _ p c (by rw [hp, hc])]
          exact haux
        | cons e es ihe =>
          intro p hes hp
          rw [List.cons_append, wsOkAux, Bool.and_eq_true]
          have he : pyWs e = false := hes e (List.mem_cons_self e es)
          exact ⟨by simp [he], ihe e (fun x hx => hes x (List.mem_cons_of_mem e hx)) he⟩
      exact this ds d (fun e he => hall e (by rw [hrc]; exact List.mem_cons_of_mem d he)) hd

/-! ## Punctuation-run collapse -/

theorem isPunc_nonWs (c : Char) (h : isPunc c = true) : pyWs c = false := by
  rw [isPunc] at h
  rcases Bool.or_eq_true_iff.mp h with h' | h'
  · rcases Bool.or_eq_true_iff.mp h' with h' | h'
    · rw [of_decide_eq_true h']; rfl
    · rw [of_decide_eq_true h']; rfl
  · rw [of_decide_eq_true h']; rfl

theorem cpAux_false_single (c : Char) : cpAux false [c] = [c] := by
  by_cases hc : isPunc c = true <;> simp [cpAux, hc]

theorem cpAux_false_run (c d : Char) (t' : List Char) (hc : isPunc c = true)
    (hd : isPunc d = true) :
    cpAux false (c :: d :: t') = '.' :: cpAux true (d :: t') := by
  simp [cpAux, hc, hd]

theorem cpAux_false_lone (c d : Char) (t' : List Char) (hc : isPunc c = true)
    (hd : isPunc d = false) :
    cpAux false (c :: d :: t') = c :: cpAux false (d :: t') := by
  simp [cpAux, hc, hd]

theorem cpAux_false_nonp (c : Char) (t : List Char) (hc : isPunc c = false) :
    cpAux false (c :: t) = c :: cpAux false t := by
  simp [cpAux, hc]

theorem cpAux_true_punc (c : Char) (t : List Char) (hc : isPunc c = true) :
    cpAux true (c :: t) = cpAux true t := by
  simp [cpAux, hc]

theorem cpAux_true_nonp (c : Char) (t : List Char) (hc : isPunc c = false) :
    cpAux true (c :: t) = c :: cpAux false t := by
  simp [cpAux, hc]

theorem wsOkAux_nil (p : Char) : wsOkAux p [] = !pyWs p := rfl

theorem wsOkAux_cons (p c : Char) (t : List Char) :
    wsOkAux p (c :: t) = ((!pyWs c || (decide (c = ' ') && !pyWs p)) && wsOkAux c t) := rfl

theorem wsOk_cons (c : Char) (t : List Char) :
    wsOk (c :: t) = (!pyWs c && wsOkAux c t) := rfl

theorem cpAux_wsOk (m : List Char) :
    (∀ p, wsOkAux p m = true → wsOkAux p (cpAux false m) = true) ∧
    (∀ p q, pyWs p = false → pyWs q = false → wsOkAux p m = true →
      wsOkAux q (cpAux true m) = true) := by
  induction m with
  | nil =>
    refine ⟨fun p h => h, fun p q hp hq h => ?_⟩
    simpa [cpAux, wsOkAux] using hq
  | cons c t ih =>
    constructor
    · intro p h
      rw [wsOkAux_cons, Bool.and_eq_true] at h
      by_cases hc : isPunc c = true
      · cases t with
        | nil =>
          rw [cpAux_false_single, wsOkAux_cons, Bool.and_eq_true]
          exact ⟨h.1, by simpa [wsOkAux_nil] using isPunc_nonWs c hc⟩
        | cons d t' =>
          by_cases hd : isPunc d = true
          · rw [cpAux_false_run c d t' hc hd, wsOkAux_cons, Bool.and_eq_true]
            refine ⟨Bool.or_eq_true_iff.mpr (Or.inl (by decide)), ?_⟩
            exact ih.2 c '.' (isPunc_nonWs c hc) (by decide) h.2
          · rw [cpAux_false_lone c d t' hc (by simpa using hd), wsOkAux_cons,
              Bool.and_eq_true]
            exact ⟨h.1, ih.1 c h.2⟩
      · rw [cpAux_false_nonp c t (by simpa using hc), wsOkAux_cons, Bool.and_eq_true]
        exact ⟨h.1, ih.1 c h.2⟩
    · intro p q hp hq h
      rw [wsOkAux_cons, Bool.and_eq_true] at h
      by_cases hc : isPunc c = true
      · rw [cpAux_true_punc c t hc]
        exact ih.2 c q (isPunc_nonWs c hc) hq h.2
      · rw [cpAux_true_nonp c t (by simpa using hc), wsOkAux_cons, Bool.and_eq_true]
        constructor
        · rcases Bool.or_eq_true_iff.mp h.1 with h' | h'
          · simp [h']
          · rcases Bool.and_eq_true_iff.mp h' with ⟨h1, _⟩
            exact Bool.or_eq_true_iff.mpr (Or.inr (Bool.and_eq_true_iff.mpr ⟨h1, by simp [hq]⟩))
        · exact ih.1 c h.2

theorem cpAux_wsOk_top (m : List Char) (h : wsOk m = true) :
    wsOk (cpAux false m) = true := by
  cases m with
  | nil => rfl
  | cons c t =>
    rw [wsOk_cons, Bool.and_eq_true] at h
    have hc : pyWs c = false := by simpa using h.1
    by_cases hpc : isPunc c = true
    · cases t with
      | nil =>
        rw [cpAux_false_single, wsOk_cons, Bool.and_eq_true]
        exact ⟨by simp [hc], by simpa [wsOkAux_nil] using hc⟩
      | cons d t' =>
        by_cases hd : isPunc d = true
        · rw [cpAux_false_run c d t' hpc hd, wsOk_cons, Bool.and_eq_true]
          refine ⟨by decide, ?_⟩
          exact (cpAux_wsOk (d :: t')).2 c '.' hc (by decide) h.2
        · rw [cpAux_false_lone c d t' hpc (by simpa using hd), wsOk_cons,
            Bool.and_eq_true]
          exact ⟨h.1, (cpAux_wsOk (d :: t')).1 c h.2⟩
    · rw [cpAux_false_nonp c t (by simpa using hpc), wsOk_cons, Bool.and_eq_true]
      exact ⟨h.1, (cpAux_wsOk t).1 c h.2⟩

theorem puncOkAux_nil (p : Char) : puncOkAux p [] = true := rfl

theorem puncOkAux_cons (p c : Char) (t : List Char) :
    puncOkAux p (c :: t) = ((!isPunc p || !isPunc c) && puncOkAux c t) := rfl

theorem cpAux_puncOk (m : List Char) :
    ((∀ p, isPunc p = false → puncOkAux p (cpAux false m) = true) ∧
     (headNotPunc m = true → ∀ p, puncOkAux p (cpAux false m) = true)) ∧
    (∀ p, puncOkAux p (cpAux true m) = true) := by
  induction m with
  | nil => exact ⟨⟨fun p _ => rfl, fun _ p => rfl⟩, fun p => rfl⟩
  | cons c t ih =>
    by_cases hc : isPunc c = true
    · refine ⟨⟨?_, ?_⟩, ?_⟩
      · intro p hp
        cases t with
        | nil =>
          rw [cpAux_false_single, puncOkAux_cons, Bool.and_eq_true]
          exact ⟨by simp [hp], rfl⟩
        | cons d t' =>
          by_cases hd : isPunc d = true
          · rw [cpAux_false_run c d t' hc hd, puncOkAux_cons, Bool.and_eq_true]
            exact ⟨by simp [hp], ih.2 '.'⟩
          · rw [cpAux_false_lone c d t' hc (by simpa using hd), puncOkAux_cons,
              Bool.and_eq_true]
            refine ⟨by simp [hp], ?_⟩
            exact ih.1.2 (by simpa [headNotPunc] using hd) c
      · intro hhead
        rw [headNotPunc, hc] at hhead
        cases hhead
      · rw [cpAux_true_punc c t hc]
        exact ih.2
    · have hc' : isPunc c = false := by simpa using hc
      have hcons : ∀ p, puncOkAux p (c :: cpAux false t) = true := by
        intro p
        rw [puncOkAux_cons, Bool.and_eq_true]
        exact ⟨by simp [hc'], ih.1.1 c hc'⟩
      refine ⟨⟨fun p _ => ?_, fun _ p => ?_⟩, fun p => ?_⟩
      · rw [cpAux_false_nonp c t hc']; exact hcons p
      · rw [cpAux_false_nonp c t hc']; exact hcons p
      · rw [cpAux_true_nonp c t hc']; exact hcons p

theorem puncOk_cpAux (m : List Char) : puncOk (cpAux false m) = true :=
  (cpAux_puncOk m).1.1 ' ' (by decide)

theorem cpAux_eq_self (m : List Char) : ∀ p, puncOkAux p m = true →
    cpAux false m = m := by
  induction m with
  | nil => intro p _; rfl
  | cons c t ih =>
    intro p h
    rw [puncOkAux_cons, Bool.and_eq_true] at h
    by_cases hc : isPunc c = true
    · cases t with
      | nil => exact cpAux_false_single c
      | cons d t' =>
        have hd : isPunc d = false := by
          have h2 := h.2
          rw [puncOkAux_cons, Bool.and_eq_true] at h2
          rcases Bool.or_eq_true_iff.mp h2.1 with h' | h'
          · rw [hc] at h'; cases h'
          · simpa using h'
        rw [cpAux_false_lone c d t' hc hd]
        rw [ih c h.2]
    · rw [cpAux_false_nonp c t (by simpa using hc)]
      rw [ih c h.2]

theorem collapsePunc_eq_self (m : List Char) (h : puncOk m = true) :
    collapsePunc m = m :=
  cpAux_eq_self m ' ' h

theorem cpAux_uniFree (m : List Char) (h : uniFree m = true) :
    uniFree (cpAux false m) = true ∧ uniFree (cpAux true m) = true := by
  induction m with
  | nil => exact ⟨rfl, rfl⟩
  | cons c t ih =>
    rw [uniFree, List.all_cons, Bool.and_eq_true] at h
    have iht := ih h.2
    by_cases hc : isPunc c = true
    · constructor
      · cases t with
        | nil =>
          rw [cpAux_false_single]
          simpa [uniFree] using h.1
        | cons d t' =>
          by_cases hd : isPunc d = true
          · rw [cpAux_false_run c d t' hc hd]
            rw [uniFree, List.all_cons, Bool.and_eq_true]
            exact ⟨by decide, iht.2⟩
          · rw [cpAux_false_lone c d t' hc (by simpa using hd)]
            rw [uniFree, List.all_cons, Bool.and_eq_true]
            exact ⟨h.1, iht.1⟩
      · rw [cpAux_true_punc c t hc]
        exact iht.2
    · have hc' : isPunc c = false := by simpa using hc
      have : uniFree (c :: cpAux false t) = true := by
        rw [uniFree, List.all_cons, Bool.and_eq_true]
        exact ⟨h.1, iht.1⟩
      exact ⟨by rw [cpAux_false_nonp c t hc']; exact this,
        by rw [cpAux_true_nonp c t hc']; exact this⟩

/-! ## Idempotence of the normalizer -/

theorem preprocess_text_fixed (s : String) :
    let X := (preprocess_text s).toList
    wsOk X = true ∧ uniFree X = true ∧ puncOk X = true := by
  intro X
  have hX : X = collapsePunc (replaceUni (squeezeWs s.toList)) := rfl
  refine ⟨?_, ?_, ?_⟩
  · rw [hX]
    exact cpAux_wsOk_top _ (wsOk_replaceUni _ (wsOk_squeezeWs s.toList))
  · rw [hX]
    exact (cpAux_uniFree _ (uniFree_replaceUni _)).1
  · rw [hX]
    exact puncOk_cpAux _

/-- C7: The text normalizer `preprocess_text` is a pure, idempotent function:
applying it twice yields the same result as applying it once (one application
collapses whitespace runs and trims, replaces typographic quotes and dashes
with ASCII equivalents, and collapses runs of two or more of `.`, `!`, `?` to
a single `.`). -/
theorem C7_preprocess_idempotent (s : String) :
    preprocess_text (preprocess_text s) = preprocess_text s := by
  have hfix := preprocess_text_fixed s
  obtain ⟨hws, huni, hpunc⟩ := hfix
  show String.mk (collapsePunc (replaceUni (squeezeWs (preprocess_text s).toList)))
      = preprocess_text s
  rw [squeezeWs_eq_self _ hws, replaceUni_eq_self _ huni, collapsePunc_eq_self _ hpunc]
  rfl

/-! ## The post-processor -/

theorem getLast?_drop_of_ne_nil (l : List Char) : ∀ n, l.drop n ≠ [] →
    (l.drop n).getLast? = l.getLast? := by
  induction l with
  | nil => intro n h; simp at h
  | cons a t ih =>
    intro n h
    cases n with
    | zero => rfl
    | succ n =>
      rw [List.drop_succ_cons] at h ⊢
      have htne : t ≠ [] := by
        intro h0; subst h0; simp at h
      rw [ih n h]
      cases t with
      | nil => exact absurd rfl htne
      | cons b t' => rw [List.getLast?_cons_cons]

theorem trimWs_getLast_keep (z : List Char) (c : Char) (hz : z.getLast? = some c)
    (hc : pyWs c = false) : (trimWs z).getLast? = some c := by
  have hAne : z.dropWhile pyWs ≠ [] := by
    intro h0
    have hmem : c ∈ z := List.mem_of_mem_getLast? (by rw [hz]; rfl)
    have := (List.dropWhile_eq_nil_iff.mp h0) c hmem
    rw [hc] at this; cases this
  have hA : (z.dropWhile pyWs).getLast? = some c := by
    rw [getLast_dropWhile z pyWs hAne, hz]
  rw [trimWs, List.getLast?_reverse]
  have hrevhead : (z.dropWhile pyWs).reverse.head? = some c := by
    rw [List.head?_reverse, hA]
  cases hrev : (z.dropWhile pyWs).reverse with
  | nil => rw [hrev] at hrevhead; cases hrevhead
  | cons d rest =>
    rw [hrev] at hrevhead
    simp at hrevhead
    subst hrevhead
    rw [List.dropWhile_cons, if_neg (by simp [hc])]
    rfl

theorem toList_append (s t : String) : (s ++ t).toList = s.toList ++ t.toList := by
  cases s
  cases t
  rfl

theorem endsPunc_append_dot (s : String) : endsPunc (s ++ ".") = true := by
  rw [endsPunc, toList_append]
  show (match (s.toList ++ ['.']).getLast? with
    | some c => isPunc c | none => false) = true
  rw [List.getLast?_concat]
  rfl

theorem post_eq_shape (x : String) :
    post_process_answer x =
      (match redundantPhrases.find? (fun p => strLeads p (postA1 x)) with
       | some p => String.mk (trimWs ((postA1 x).toList.drop p.length))
       | none => postA1 x) := rfl

theorem postA1_wsOk (x : String) : wsOk (postA1 x).toList = true := by
  rw [postA1]
  have h0 : wsOk (String.mk (squeezeWs x.toList)).toList = true := wsOk_squeezeWs x.toList
  split_ifs with he hp
  · exact h0
  · exact h0
  · rw [toList_append]
    exact wsOk_append_nonws _ '.' h0 rfl

theorem postA1_ends (x : String) : postA1 x = "" ∨ endsPunc (postA1 x) = true := by
  rw [postA1]
  split_ifs with he hp
  · exact Or.inl he
  · exact Or.inr hp
  · exact Or.inr (endsPunc_append_dot _)

theorem post_wsOk (x : String) : wsOk (post_process_answer x).toList = true := by
  rw [post_eq_shape]
  cases hfind : redundantPhrases.find? (fun p => strLeads p (postA1 x)) with
  | none => exact postA1_wsOk x
  | some p =>
    show wsOk (String.mk (trimWs ((postA1 x).toList.drop p.length))).toList = true
    exact wsOk_trimWs_drop _ p.length (postA1_wsOk x)

theorem post_endsOrEmpty (x : String) :
    post_process_answer x = "" ∨ endsPunc (post_process_answer x) = true := by
  rw [post_eq_shape]
  cases hfind : redundantPhrases.find? (fun p => strLeads p (postA1 x)) with
  | none => exact postA1_ends x
  | some p =>
    show String.mk (trimWs ((postA1 x).toList.drop p.length)) = "" ∨
      endsPunc (String.mk (trimWs ((postA1 x).toList.drop p.length))) = true
    rcases postA1_ends x with h1 | h1
    · left
      rw [h1]
      have hdrop : List.drop p.length ("" : String).toList = [] := List.drop_nil
      rw [hdrop]
      rfl
    · rcases hc : (postA1 x).toList.getLast? with _ | c
      · rw [endsPunc, hc] at h1
        cases h1
      · rw [endsPunc, hc] at h1
        by_cases hd : (postA1 x).toList.drop p.length = []
        · left
          rw [hd]
          rfl
        · right
          have hlast : ((postA1 x).toList.drop p.length).getLast? = some c := by
            rw [getLast?_drop_of_ne_nil _ p.length hd, hc]
          have htr : (trimWs ((postA1 x).toList.drop p.length)).getLast? = some c :=
            trimWs_getLast_keep _ c hlast (isPunc_nonWs c h1)
          rw [endsPunc]
          show (match (trimWs ((postA1 x).toList.drop p.length)).getLast? with
            | some c => isPunc c | none => false) = true
          rw [htr]
          exact h1

theorem post_of_normalized (y : String) (hws : wsOk y.toList = true)
    (hend : y = "" ∨ endsPunc y = true)
    (hnoph : ∀ p ∈ redundantPhrases, strLeads p y = false) :
    post_process_answer y = y := by
  have ha : postA1 y = y := by
    rw [postA1]
    have h0 : String.mk (squeezeWs y.toList) = y := by
      rw [squeezeWs_eq_self _ hws]
      rfl
    rw [h0]
    rcases hend with h | h
    · rw [if_pos h]
    · rw [if_neg, if_pos h]
      intro h0'
      rw [h0'] at h
      cases h
  rw [post_eq_shape, ha]
  have hfind : redundantPhrases.find? (fun p => strLeads p y) = none :=
    List.find?_eq_none.mpr (fun p hp => by simp [hnoph p hp])
  rw [hfind]

/-- C2 counterexample: the post-processor is not idempotent.  On an input
that starts with a boilerplate phrase twice, the first application strips one
copy and the second application strips the other. -/
theorem C2_post_process_not_idempotent :
    post_process_answer (post_process_answer
        "Based on the provided context, Based on the provided context, hi") ≠
      post_process_answer
        "Based on the provided context, Based on the provided context, hi" := by
  decide

/-- C2 (amended): the post-processor is idempotent on every input whose
post-processed form does not itself begin with one of the boilerplate lead-in
phrases.  (As stated the claim is false: when the output still starts with a
phrase — e.g. when the input repeats one — a second application strips it
again, see `C2_post_process_not_idempotent`.) -/
theorem C2_post_process_idempotent_no_phrase (x : String)
    (h : ∀ p ∈ redundantPhrases, strLeads p (post_process_answer x) = false) :
    post_process_answer (post_process_answer x) = post_process_answer x :=
  post_of_normalized (post_process_answer x) (post_wsOk x) (post_endsOrEmpty x) h

/-- Witness for `C2_post_process_idempotent_no_phrase` at a concrete input. -/
theorem C2_post_process_idempotent_no_phrase_witness :
    (∀ p ∈ redundantPhrases, strLeads p (post_process_answer "hello  world") = false) ∧
      post_process_answer (post_process_answer "hello  world") =
        post_process_answer "hello  world" :=
  ⟨by decide, C2_post_process_idempotent_no_phrase "hello  world" (by decide)⟩

/-! ## Fallback scoring -/

theorem filter_orderedInsert_key (a : Nat × String) (s : Nat) :
    ∀ l : List (Nat × String),
      (List.orderedInsert rDesc a l).filter (fun p => decide (p.1 = s)) =
        ((a :: l).filter (fun p => decide (p.1 = s))) := by
  intro l
  induction l with
  | nil => rfl
  | cons b t ih =>
    by_cases hr : rDesc a b
    · rw [List.orderedInsert, if_pos hr]
    · rw [List.orderedInsert, if_neg hr]
      have hne : a.1 ≠ b.1 := by
        intro h
        exact hr (le_of_eq h.symm)
      rw [List.filter_cons, List.filter_cons, List.filter_cons, ih, List.filter_cons]
      by_cases ha : a.1 = s
      · have hb : ¬ b.1 = s := fun hb => hne (by rw [ha, hb])
        simp [ha, hb]
      · simp [ha]

theorem filter_insertionSort_key (s : Nat) : ∀ l : List (Nat × String),
    (List.insertionSort rDesc l).filter (fun p => decide (p.1 = s)) =
      l.filter (fun p => decide (p.1 = s)) := by
  intro l
  induction l with
  | nil => rfl
  | cons a t ih =>
    rw [List.insertionSort, filter_orderedInsert_key, List.filter_cons,
      List.filter_cons, ih]

theorem sum_counts_eq_pairs {α β : Type} (P : α → β → Bool) (B : List β) :
    ∀ A : List α,
      ((A.map (fun a => ((B.filter (P a)).length))).sum =
        ((A.product B).filter (fun ab => P ab.1 ab.2)).length) := by
  intro A
  induction A with
  | nil => rfl
  | cons a A ih =>
    have hcons : (a :: A).product B = B.map (fun b => (a, b)) ++ A.product B := by
      show List.flatMap _ _ = _
      rw [List.flatMap_cons]
      rfl
    rw [List.map_cons, List.sum_cons, hcons, List.filter_append, List.length_append,
      ih, List.filter_map, List.length_map]
    rfl

theorem exactPhrases_eq_spec (qWords : List String) (chunk : String) :
    exactPhrases qWords (pyLower chunk).toList = specExactPhrases qWords chunk := by
  rw [exactPhrases, specExactPhrases]
  exact sum_counts_eq_pairs _ _ _

theorem scoreChunk_eq_spec (qWords : List String) (chunk : String) :
    scoreChunk qWords chunk =
      (specWordOverlap qWords chunk : ℚ) +
        (1 / 2) * (specPhraseMatches qWords chunk : ℚ) +
        2 * (specExactPhrases qWords chunk : ℚ) := by
  simp only [scoreChunk, scoreChunk2, specWordOverlap, specPhraseMatches]
  have hinter : qWords.inter (wordTokens (pyLower chunk)) =
      qWords.filter (fun w => (wordTokens (pyLower chunk)).contains w) := rfl
  rw [hinter, List.countP_eq_length_filter, List.countP_eq_length_filter,
    exactPhrases_eq_spec]
  push_cast
  ring

theorem scoreChunk_nonpos_iff (qWords : List String) (chunk : String) :
    scoreChunk qWords chunk ≤ 0 ↔ scoreChunk2 qWords chunk = 0 := by
  rw [scoreChunk]
  constructor
  · intro h
    by_contra hne
    have hpos : 0 < scoreChunk2 qWords chunk := Nat.pos_of_ne_zero hne
    have : (0 : ℚ) < (scoreChunk2 qWords chunk : ℚ) / 2 := by positivity
    exact absurd h (not_le.mpr this)
  · intro h
    rw [h]
    norm_num

theorem scoreChunk_pos_iff (qWords : List String) (chunk : String) :
    0 < scoreChunk qWords chunk ↔ 0 < scoreChunk2 qWords chunk := by
  rw [← not_iff_not]
  simpa [not_lt, Nat.le_zero] using scoreChunk_nonpos_iff qWords chunk

theorem generateImprovedAnswerW_shape (cfg : Config) (qWords : List String)
    (chunks : List String) :
    generateImprovedAnswerW cfg qWords chunks =
      (if chunks = [] then noInfoMsg
       else if (keptChunks qWords chunks).map (·.2) = [] then noSpecificMsg
       else finishImproved cfg ((keptChunks qWords chunks).map (·.2))) := rfl

/-- C1: For every keyword enumeration and non-empty passage list, the fallback
synthesizer scores each passage as
`word_overlap + 0.5 * phrase_matches + 2 * exact_phrase_bonus` (whole-word
keyword count, case-insensitive substring keyword count, and the count of
contiguous windows `i < j` of the enumerated keyword list whose space-joined
text is a substring of the lower-cased passage); it sorts the passages
descending by score, stably (ties keep input order), keeps at most the top 4,
all with positive score, and returns the fixed "nothing specific found"
message exactly when no passage scores positively.  (Entries carry the
doubled score `scoreChunk2`; `(·.1 : ℚ) / 2` is the float score.) -/
theorem C1_fallback_synthesis (cfg : Config) (qWords : List String)
    (chunks : List String) (hne : chunks ≠ []) (hnd : qWords.Nodup) :
    (∀ c ∈ chunks, scoreChunk qWords c =
        (specWordOverlap qWords c : ℚ) + (1 / 2) * (specPhraseMatches qWords c : ℚ)
          + 2 * (specExactPhrases qWords c : ℚ))
    ∧ List.Perm (rankedChunks qWords chunks) (scoredChunks qWords chunks)
    ∧ List.Sorted (fun a b : Nat × String => ((b.1 : ℚ) / 2) ≤ ((a.1 : ℚ) / 2))
        (rankedChunks qWords chunks)
    ∧ (∀ s : Nat, (rankedChunks qWords chunks).filter (fun p => decide (p.1 = s)) =
        (scoredChunks qWords chunks).filter (fun p => decide (p.1 = s)))
    ∧ (keptChunks qWords chunks).length ≤ 4
    ∧ (∀ p ∈ keptChunks qWords chunks, (0 : ℚ) < (p.1 : ℚ) / 2)
    ∧ ((∀ c ∈ chunks, scoreChunk qWords c ≤ 0) →
        generateImprovedAnswerW cfg qWords chunks = noSpecificMsg)
    ∧ ((∃ c ∈ chunks, 0 < scoreChunk qWords c) →
        generateImprovedAnswerW cfg qWords chunks =
          finishImproved cfg ((keptChunks qWords chunks).map (·.2))) := by
  refine ⟨?_, ?_, ?_, ?_, ?_, ?_, ?_, ?_⟩
  · intro c _
    rw [scoreChunk_eq_spec]
  · exact List.perm_insertionSort rDesc _
  · refine (List.sorted_insertionSort rDesc _).imp ?_
    intro a b h
    have : (b.1 : ℚ) ≤ (a.1 : ℚ) := by exact_mod_cast h
    linarith
  · intro s
    exact filter_insertionSort_key s _
  · refine le_trans (List.length_filter_le _ _) ?_
    rw [List.length_take]
    exact min_le_left _ _
  · intro p hp
    have : 0 < p.1 := of_decide_eq_true (List.mem_filter.mp hp).2
    have h2 : (0 : ℚ) < (p.1 : ℚ) := by exact_mod_cast this
    linarith
  · intro hall
    have hkept : keptChunks qWords chunks = [] := by
      refine List.filter_eq_nil_iff.mpr ?_
      intro p hp
      have hpm : p ∈ rankedChunks qWords chunks := List.take_subset _ _ hp
      have hps : p ∈ scoredChunks qWords chunks :=
        (List.mem_insertionSort rDesc).mp hpm
      rcases List.mem_map.mp hps with ⟨c, hc, hceq⟩
      have hz : p.1 = 0 := by
        rw [← hceq]
        exact (scoreChunk_nonpos_iff qWords c).mp (hall c hc)
      simp [hz]
    rw [generateImprovedAnswerW_shape, if_neg hne, hkept]
    rfl
  · rintro ⟨c, hc, hpos⟩
    have hpos2 : 0 < scoreChunk2 qWords c := (scoreChunk_pos_iff qWords c).mp hpos
    have hsc : (scoreChunk2 qWords c, c) ∈ scoredChunks qWords chunks :=
      List.mem_map.mpr ⟨c, hc, rfl⟩
    have hrk : (scoreChunk2 qWords c, c) ∈ rankedChunks qWords chunks :=
      (List.mem_insertionSort rDesc).mpr hsc
    have hrne : rankedChunks qWords chunks ≠ [] := List.ne_nil_of_mem hrk
    rcases List.exists_cons_of_ne_nil hrne with ⟨h, t, hht⟩
    have hsort : List.Sorted rDesc (rankedChunks qWords chunks) :=
      List.sorted_insertionSort rDesc _
    rw [hht] at hsort
    have hrel := (List.sorted_cons.mp hsort).1
    have hhpos : 0 < h.1 := by
      have hmem : (scoreChunk2 qWords c, c) ∈ h :: t := by rw [← hht]; exact hrk
      rcases List.mem_cons.mp hmem with heq | hmem'
      · rw [← heq]
        exact hpos2
      · exact lt_of_lt_of_le hpos2 (hrel _ hmem')
    have hhkept : h ∈ keptChunks qWords chunks := by
      refine List.mem_filter.mpr ⟨?_, decide_eq_true hhpos⟩
      rw [hht]
      exact List.mem_cons_self h _
    have hmapne : (keptChunks qWords chunks).map (·.2) ≠ [] := by
      intro h0
      rw [List.map_eq_nil_iff] at h0
      rw [h0] at hhkept
      cases hhkept
    rw [generateImprovedAnswerW_shape, if_neg hne, if_neg hmapne]

/-- Witness for `C1_fallback_synthesis` at a concrete input. -/
theorem C1_fallback_synthesis_witness :
    (keptChunks ["machine", "learning"]
        ["Machine learning is a subset of AI.", "Cooking pasta requires water."]).length ≤ 4 :=
  (C1_fallback_synthesis cfgDefault ["machine", "learning"]
    ["Machine learning is a subset of AI.", "Cooking pasta requires water."]
    (by decide) (by decide)).2.2.2.2.1

/-- C8 counterexample: fallback synthesis is not a function of the
(question, passage list) pair alone.  The `exact_phrases` bonus inspects
contiguous windows of `list(question_words)`, and a Python `set` of strings is
enumerated in a hash-seed-dependent order, so two runs can enumerate the same
keyword set in different orders — shown here to produce different ranked
orders and different final answers on identical inputs. -/
theorem C8_fallback_order_dependent :
    (questionKeywords "machine learning").toFinset =
        (["learning", "machine"] : List String).toFinset ∧
      generateImprovedAnswerW cfgDefault (questionKeywords "machine learning")
          ["machine learning powers modern systems",
           "learning machine tools shape industry"] ≠
        generateImprovedAnswerW cfgDefault ["learning", "machine"]
          ["machine learning powers modern systems",
           "learning machine tools shape industry"] := by
  constructor
  · decide
  · decide

/-- C8 (amended): fallback synthesis is deterministic once the enumeration
order of the keyword set is fixed: the ranked order and the final answer are
functions of the enumerated keyword list and the passage list, so any two
questions (and in particular two runs on the same question whose set
enumeration agrees) with the same enumerated keywords and identical passages
yield the identical ranked order and identical final answer. -/
theorem C8_fallback_deterministic_given_enumeration (cfg : Config)
    (q₁ q₂ : String) (chunks : List String)
    (h : questionKeywords q₁ = questionKeywords q₂) :
    rankedChunks (questionKeywords q₁) chunks =
        rankedChunks (questionKeywords q₂) chunks ∧
      generate_improved_answer cfg q₁ chunks = generate_improved_answer cfg q₂ chunks := by
  constructor
  · rw [h]
  · rw [generate_improved_answer, generate_improved_answer, h]

/-- Witness for `C8_fallback_deterministic_given_enumeration` at concrete
inputs. -/
theorem C8_fallback_deterministic_given_enumeration_witness :
    generate_improved_answer cfgDefault "machine   learning"
        ["machine learning powers modern systems"] =
      generate_improved_answer cfgDefault "the machine learning"
        ["machine learning powers modern systems"] :=
  (C8_fallback_deterministic_given_enumeration cfgDefault "machine   learning"
    "the machine learning" ["machine learning powers modern systems"] (by decide)).2

/-! ## Truncation -/

theorem rfindChar_ge (c : Char) : ∀ l : List Char, -1 ≤ rfindChar l c := by
  intro l
  induction l with
  | nil => exact le_refl _
  | cons a t ih =>
    simp only [rfindChar]
    split_ifs <;> omega

theorem rfind_max_eq_lastPuncIdx (l : List Char) :
    max (max (rfindChar l '.') (rfindChar l '!')) (rfindChar l '?') =
      (match lastPuncIdx l with | some k => (k : Int) | none => -1) := by
  induction l with
  | nil => rfl
  | cons a t ih =>
    simp only [rfindChar, lastPuncIdx]
    have hge1 := rfindChar_ge '.' t
    have hge2 := rfindChar_ge '!' t
    have hge3 := rfindChar_ge '?' t
    rcases hlp : lastPuncIdx t with _ | k
    · rw [hlp] at ih
      have ihv : max (max (rfindChar t '.') (rfindChar t '!')) (rfindChar t '?')
          = -1 := ih
      have hle1 : rfindChar t '.' ≤ -1 :=
        le_trans (le_trans (le_max_left _ _) (le_max_left _ _)) (le_of_eq ihv)
      have hle2 : rfindChar t '!' ≤ -1 :=
        le_trans (le_trans (le_max_right _ _) (le_max_left _ _)) (le_of_eq ihv)
      have hle3 : rfindChar t '?' ≤ -1 := le_trans (le_max_right _ _) (le_of_eq ihv)
      rw [le_antisymm hle1 hge1, le_antisymm hle2 hge2, le_antisymm hle3 hge3]
      rw [if_neg (show ¬(0 : Int) ≤ -1 by norm_num),
        if_neg (show ¬(0 : Int) ≤ -1 by norm_num),
        if_neg (show ¬(0 : Int) ≤ -1 by norm_num)]
      by_cases h1 : a = '.'
      · subst h1
        simp [isPunc]
      · by_cases h2 : a = '!'
        · subst h2
          simp [isPunc]
        · by_cases h3 : a = '?'
          · subst h3
            simp [isPunc, h1]
          · simp [isPunc, h1, h2, h3]
    · rw [hlp] at ih
      have ihv : max (max (rfindChar t '.') (rfindChar t '!')) (rfindChar t '?')
          = (k : Int) := ih
      show max (max (if 0 ≤ rfindChar t '.' then rfindChar t '.' + 1
            else if a = '.' then 0 else -1)
          (if 0 ≤ rfindChar t '!' then rfindChar t '!' + 1
            else if a = '!' then 0 else -1))
          (if 0 ≤ rfindChar t '?' then rfindChar t '?' + 1
            else if a = '?' then 0 else -1) = ((k + 1 : Nat) : Int)
      have hk0 : (0 : Int) ≤ (k : Int) := Int.natCast_nonneg k
      have hub : ∀ x c', x ≤ (k : Int) → -1 ≤ x →
          (if 0 ≤ x then x + 1 else if a = c' then 0 else (-1 : Int))
            ≤ (k : Int) + 1 := by
        intro x c' hx hxg
        split_ifs <;> omega
      have h1' := le_trans (le_trans (le_max_left _ _) (le_max_left _ _)) (le_of_eq ihv)
      have h2' := le_trans (le_trans (le_max_right _ _) (le_max_left _ _)) (le_of_eq ihv)
      have h3' := le_trans (le_max_right _ _) (le_of_eq ihv)
      have hcast : ((k + 1 : Nat) : Int) = (k : Int) + 1 := by push_cast; ring
      rw [hcast]
      refine le_antisymm ?_ ?_
      · exact max_le (max_le (hub _ '.' h1' hge1) (hub _ '!' h2' hge2))
          (hub _ '?' h3' hge3)
      · rcases max_choice (max (rfindChar t '.') (rfindChar t '!')) (rfindChar t '?')
          with hm | hm
        · rcases max_choice (rfindChar t '.') (rfindChar t '!') with hm' | hm'
          · have hv : rfindChar t '.' = (k : Int) := by rw [← ihv, hm, hm']
            refine le_trans ?_ (le_trans (le_max_left _ _) (le_max_left _ _))
            rw [hv, if_pos hk0]
          · have hv : rfindChar t '!' = (k : Int) := by rw [← ihv, hm, hm']
            refine le_trans ?_ (le_trans (le_max_right _ _) (le_max_left _ _))
            rw [hv, if_pos hk0]
        · have hv : rfindChar t '?' = (k : Int) := by rw [← ihv, hm]
          refine le_trans ?_ (le_max_right _ _)
          rw [hv, if_pos hk0]

theorem lastPuncIdx_bound : ∀ (l : List Char) (k : Nat),
    lastPuncIdx l = some k → k < l.length := by
  intro l
  induction l with
  | nil => intro k h; cases h
  | cons a t ih =>
    intro k h
    cases hlp : lastPuncIdx t with
    | some k' =>
      simp only [lastPuncIdx, hlp] at h
      have hk : k = k' + 1 := by
        cases h
        rfl
      subst hk
      have := ih k' hlp
      simp only [List.length_cons]
      omega
    | none =>
      simp only [lastPuncIdx, hlp] at h
      split_ifs at h with hpa
      cases h
      simp

theorem lastPuncIdx_none_char : ∀ l : List Char, lastPuncIdx l = none →
    ∀ j, j < l.length → isPunc (l.getD j ' ') = false := by
  intro l
  induction l with
  | nil => intro _ j hj; simp at hj
  | cons a t ih =>
    intro h j hj
    cases hlp : lastPuncIdx t with
    | some k' =>
      simp only [lastPuncIdx, hlp] at h
      exact Option.noConfusion h
    | none =>
      simp only [lastPuncIdx, hlp] at h
      split_ifs at h with hpa
      cases j with
      | zero => simpa using hpa
      | succ j =>
        rw [List.getD_cons_succ]
        exact ih hlp j (by simpa using hj)

theorem lastPuncIdx_some_char : ∀ (l : List Char) (k : Nat),
    lastPuncIdx l = some k →
      isPunc (l.getD k ' ') = true ∧
        ∀ j, k < j → j < l.length → isPunc (l.getD j ' ') = false := by
  intro l
  induction l with
  | nil => intro k h; cases h
  | cons a t ih =>
    intro k h
    cases hlp : lastPuncIdx t with
    | some k' =>
      simp only [lastPuncIdx, hlp] at h
      have hk : k = k' + 1 := by
        cases h
        rfl
      subst hk
      obtain ⟨hkk, hafter⟩ := ih k' hlp
      refine ⟨by rwa [List.getD_cons_succ], ?_⟩
      intro j hj hjl
      cases j with
      | zero => omega
      | succ j =>
        rw [List.getD_cons_succ]
        exact hafter j (by omega) (by simpa using hjl)
    | none =>
      simp only [lastPuncIdx, hlp] at h
      split_ifs at h with hpa
      cases h
      refine ⟨by simpa using hpa, ?_⟩
      intro j hj hjl
      cases j with
      | zero => omega
      | succ j =>
        rw [List.getD_cons_succ]
        exact lastPuncIdx_none_char t hlp j (by simpa using hjl)

theorem truncateText_shape (L : Nat) (c : String) :
    truncateText L c =
      if L < c.length then
        (if pyGtL07 (max (max (rfindChar (c.toList.take L) '.')
              (rfindChar (c.toList.take L) '!'))
            (rfindChar (c.toList.take L) '?')) L then
          String.mk (c.toList.take (((max (max (rfindChar (c.toList.take L) '.')
            (rfindChar (c.toList.take L) '!')) (rfindChar (c.toList.take L) '?')
              : Int) + 1).toNat))
        else String.mk (c.toList.take L) ++ "...")
      else c := rfl

theorem pyGtL07_neg_one (L : Nat) : pyGtL07 (-1) L = false := rfl

theorem truncateText_branches (L : Nat) (c : String) (hL : L < c.length) :
    (match lastPuncIdx (c.toList.take L) with
     | some p =>
         (if pyGtL07 ((p : Nat) : Int) L = true then
            truncateText L c = String.mk (c.toList.take (p + 1))
          else truncateText L c = String.mk (c.toList.take L) ++ "...")
     | none => truncateText L c = String.mk (c.toList.take L) ++ "...") := by
  have hbr := rfind_max_eq_lastPuncIdx (c.toList.take L)
  rcases hlp : lastPuncIdx (c.toList.take L) with _ | p
  · rw [hlp] at hbr
    have hbr' : max (max (rfindChar (c.toList.take L) '.')
        (rfindChar (c.toList.take L) '!')) (rfindChar (c.toList.take L) '?')
          = -1 := hbr
    show truncateText L c = String.mk (c.toList.take L) ++ "..."
    rw [truncateText_shape, if_pos hL, hbr']
    rw [if_neg (by rw [pyGtL07_neg_one]; exact Bool.false_ne_true)]
  · rw [hlp] at hbr
    have hbr' : max (max (rfindChar (c.toList.take L) '.')
        (rfindChar (c.toList.take L) '!')) (rfindChar (c.toList.take L) '?')
          = (p : Int) := hbr
    show (if pyGtL07 ((p : Nat) : Int) L = true then
        truncateText L c = String.mk (c.toList.take (p + 1))
      else truncateText L c = String.mk (c.toList.take L) ++ "...")
    by_cases hcond : pyGtL07 ((p : Nat) : Int) L = true
    · rw [if_pos hcond, truncateText_shape, if_pos hL, hbr', if_pos hcond]
      have htn : ((p : Int) + 1).toNat = p + 1 := by omega
      rw [htn]
    · rw [if_neg hcond, truncateText_shape, if_pos hL, hbr',
        if_neg hcond]

theorem strLength_mk (l : List Char) : (String.mk l).length = l.length := rfl

theorem strLength_append (s t : String) : (s ++ t).length = s.length + t.length := by
  cases s with
  | mk l =>
    cases t with
    | mk m =>
      show (String.mk (l ++ m)).length = _
      rw [strLength_mk, strLength_mk, strLength_mk, List.length_append]

theorem strLength_toList (s : String) : s.toList.length = s.length := rfl

set_option maxRecDepth 100000 in
/-- C5 counterexample: the claim's branch condition reads `p > 0.7 * L` in
exact arithmetic, but the program evaluates `sentence_end > max_length * 0.7`
in IEEE-754 doubles, and `90 * 0.7` rounds to
`62.99999999999999...  < 63`.  At `MAX_ANSWER_LENGTH = 90` with the last
sentence break of the first 90 characters at index 63 — where `63 > 0.7 · 90`
is false, so the claim requires the hard cut with the ellipsis — the program
cuts at the punctuation, inclusive, with no ellipsis. -/
theorem C5_truncation_exact_counterexample :
    ¬ ((63 : ℚ) > (90 : ℚ) * (7 / 10)) ∧
    (90 : Nat) < ("aaaaaaaaaaaaaaaaaaaaaaaaaaaaaaaaaaaaaaaaaaaaaaaaaaaaaaaaaaaaaaa.bbbbbbbbbbbbbbbbbbbbbbbbbbbbbb" : String).length ∧
    lastPuncIdx (("aaaaaaaaaaaaaaaaaaaaaaaaaaaaaaaaaaaaaaaaaaaaaaaaaaaaaaaaaaaaaaa.bbbbbbbbbbbbbbbbbbbbbbbbbbbbbb" : String).toList.take 90) = some 63 ∧
    truncateText 90 "aaaaaaaaaaaaaaaaaaaaaaaaaaaaaaaaaaaaaaaaaaaaaaaaaaaaaaaaaaaaaaa.bbbbbbbbbbbbbbbbbbbbbbbbbbbbbb" =
      String.mk (("aaaaaaaaaaaaaaaaaaaaaaaaaaaaaaaaaaaaaaaaaaaaaaaaaaaaaaaaaaaaaaa.bbbbbbbbbbbbbbbbbbbbbbbbbbbbbb" : String).toList.take 64) ∧
    truncateText 90 "aaaaaaaaaaaaaaaaaaaaaaaaaaaaaaaaaaaaaaaaaaaaaaaaaaaaaaaaaaaaaaa.bbbbbbbbbbbbbbbbbbbbbbbbbbbbbb" ≠
      String.mk (("aaaaaaaaaaaaaaaaaaaaaaaaaaaaaaaaaaaaaaaaaaaaaaaaaaaaaaaaaaaaaaa.bbbbbbbbbbbbbbbbbbbbbbbbbbbbbb" : String).toList.take 90) ++ "..." := by
  refine ⟨by norm_num, by decide, by decide, by decide, by decide⟩

/-- C5 (amended): Truncation in the fallback synthesizer, with the branch
condition `p > 0.7 * L` taken as the program computes it — the IEEE-754
double comparison `sentence_end > max_length * 0.7` (`pyGtL07`), which
coincides with the exact comparison except when the rounded product falls on
the other side of the integer `p`.  Text of at most `L` characters is kept
unchanged; otherwise, with `p` the last index of `.`, `!` or `?` within the
first `L` characters (characterized below), the text is cut at `p` inclusive
with no ellipsis when `pyGtL07 p L`, and hard-cut at `L` with `"..."`
appended otherwise; the result never exceeds `L` plus the length of the
ellipsis marker. -/
theorem C5_truncation_float (L : Nat) (c : String) :
    (c.length ≤ L → truncateText L c = c)
    ∧ (truncateText L c).length ≤ L + 3
    ∧ (L < c.length →
        (match lastPuncIdx (c.toList.take L) with
         | some p =>
             isPunc ((c.toList.take L).getD p ' ') = true ∧ p < L ∧
             (∀ j, p < j → j < (c.toList.take L).length →
                 isPunc ((c.toList.take L).getD j ' ') = false) ∧
             (if pyGtL07 ((p : Nat) : Int) L = true then
                truncateText L c = String.mk (c.toList.take (p + 1))
              else truncateText L c = String.mk (c.toList.take L) ++ "...")
         | none => truncateText L c = String.mk (c.toList.take L) ++ "...")) := by
  have hfit : ¬ L < c.length → truncateText L c = c := by
    intro h
    rw [truncateText_shape, if_neg h]
  refine ⟨fun h => hfit (not_lt.mpr h), ?_, ?_⟩
  · by_cases hL : L < c.length
    · have hb := truncateText_branches L c hL
      rcases hlp : lastPuncIdx (c.toList.take L) with _ | p
      · rw [hlp] at hb
        have hb' : truncateText L c = String.mk (c.toList.take L) ++ "..." := hb
        rw [hb', strLength_append, strLength_mk, List.length_take]
        have : min L c.toList.length ≤ L := min_le_left _ _
        have h3 : ("..." : String).length = 3 := rfl
        omega
      · rw [hlp] at hb
        have hb' : (if pyGtL07 ((p : Nat) : Int) L = true then
            truncateText L c = String.mk (c.toList.take (p + 1))
          else truncateText L c = String.mk (c.toList.take L) ++ "...") := hb
        have hbound := lastPuncIdx_bound _ p hlp
        rw [List.length_take] at hbound
        have hpL : p < L := lt_of_lt_of_le hbound (min_le_left _ _)
        split_ifs at hb' with hcond
        · rw [hb', strLength_mk, List.length_take]
          have : min (p + 1) c.toList.length ≤ p + 1 := min_le_left _ _
          omega
        · rw [hb', strLength_append, strLength_mk, List.length_take]
          have : min L c.toList.length ≤ L := min_le_left _ _
          have h3 : ("..." : String).length = 3 := rfl
          omega
    · rw [hfit hL]
      rw [not_lt] at hL
      omega
  · intro hL
    have hb := truncateText_branches L c hL
    rcases hlp : lastPuncIdx (c.toList.take L) with _ | p
    · rw [hlp] at hb
      exact hb
    · rw [hlp] at hb
      have hchar := lastPuncIdx_some_char _ p hlp
      have hbound := lastPuncIdx_bound _ p hlp
      refine ⟨hchar.1, ?_, hchar.2, hb⟩
      rw [List.length_take] at hbound
      exact lt_of_lt_of_le hbound (min_le_left _ _)

set_option maxRecDepth 100000 in
/-- Witness for `C5_truncation_float`: scenario E — limit 50, an
80-character text whose last sentence break within the first 50 characters
sits at index 42 (past 70% of the limit, where the float and exact
comparisons agree) is cut at the break, inclusive, with no ellipsis. -/
theorem C5_truncation_float_witness :
    truncateText 50
        "aaaaaaaaaaaaaaaaaaaaaaaaaaaaaaaaaaaaaaaaaa.bbbbbbbbbbbbbbbbbbbbbbbbbbbbbbbbbbbbb" =
      String.mk (("aaaaaaaaaaaaaaaaaaaaaaaaaaaaaaaaaaaaaaaaaa.bbbbbbbbbbbbbbbbbbbbbbbbbbbbbbbbbbbbb" : String).toList.take 43) := by
  have h := (C5_truncation_float 50
    "aaaaaaaaaaaaaaaaaaaaaaaaaaaaaaaaaaaaaaaaaa.bbbbbbbbbbbbbbbbbbbbbbbbbbbbbbbbbbbbb").2.2
    (by decide)
  rw [show lastPuncIdx ((("aaaaaaaaaaaaaaaaaaaaaaaaaaaaaaaaaaaaaaaaaa.bbbbbbbbbbbbbbbbbbbbbbbbbbbbbbbbbbbbb" : String).toList).take 50) = some 42 from by decide] at h
  obtain ⟨h1, h2, h3, h4⟩ := h
  rw [if_pos (by decide)] at h4
  exact h4

/-! ## Retrieval -/

theorem collectRel_ok_facts (cfg : Config) : ∀ (neighbors : List (Int × ℚ))
    (chunks : List String) (l : List (String × ℚ)),
    collectRel cfg neighbors chunks = .ok l →
      ∀ p ∈ l, p.2 < cfg.RELEVANCE_THRESHOLD ∧
        ∃ pr ∈ neighbors, pr.1 < (chunks.length : Int) ∧ pr.2 = p.2 ∧
          ∃ content, pyGetStr chunks pr.1 = .ok content ∧ p.1 = preprocess_text content := by
  intro neighbors
  induction neighbors with
  | nil =>
    intro chunks l h p hp
    cases h
    cases hp
  | cons pr rest ih =>
    intro chunks l h p hp
    obtain ⟨i, d⟩ := pr
    by_cases hbound : i < (chunks.length : Int)
    · rw [collectRel, if_pos hbound] at h
      cases hget : pyGetStr chunks i with
      | error e =>
        rw [hget] at h
        cases h
      | ok content =>
        rw [hget] at h
        cases hrest : collectRel cfg rest chunks with
        | error e =>
          rw [hrest] at h
          cases h
        | ok l' =>
          rw [hrest] at h
          have h' : (Except.ok (if d < cfg.RELEVANCE_THRESHOLD then
              (preprocess_text content, d) :: l' else l') : Except String _)
                = Except.ok l := h
          injection h' with hl
          by_cases hthr : d < cfg.RELEVANCE_THRESHOLD
          · rw [if_pos hthr] at hl
            subst hl
            rcases List.mem_cons.mp hp with hph | hpt
            · subst hph
              exact ⟨hthr, ⟨(i, d), List.mem_cons_self _ _, hbound, rfl,
                content, hget, rfl⟩⟩
            · obtain ⟨hlt, pr', hpr', hrest'⟩ := ih chunks l' hrest p hpt
              exact ⟨hlt, pr', List.mem_cons_of_mem _ hpr', hrest'⟩
          · rw [if_neg hthr] at hl
            subst hl
            obtain ⟨hlt, pr', hpr', hrest'⟩ := ih chunks l' hrest p hp
            exact ⟨hlt, pr', List.mem_cons_of_mem _ hpr', hrest'⟩
    · rw [collectRel, if_neg hbound] at h
      obtain ⟨hlt, pr', hpr', hrest'⟩ := ih chunks l h p hp
      exact ⟨hlt, pr', List.mem_cons_of_mem _ hpr', hrest'⟩

theorem collectRel_skip (cfg : Config) : ∀ (neighbors : List (Int × ℚ))
    (chunks : List String),
    collectRel cfg (neighbors.filter
        (fun pr => decide (pr.1 < (chunks.length : Int)))) chunks =
      collectRel cfg neighbors chunks := by
  intro neighbors
  induction neighbors with
  | nil => intro chunks; rfl
  | cons pr rest ih =>
    intro chunks
    obtain ⟨i, d⟩ := pr
    by_cases hbound : i < (chunks.length : Int)
    · rw [List.filter_cons, if_pos (by simpa using hbound)]
      rw [collectRel, if_pos hbound, collectRel, if_pos hbound, ih chunks]
    · rw [List.filter_cons, if_neg (by simpa using hbound)]
      rw [collectRel, if_neg hbound, ih chunks]

/-- C4: Every passage surfaced by the retrieval step corresponds to a
nearest-neighbor hit with distance strictly below `RELEVANCE_THRESHOLD`
(entries at or above the threshold are never surfaced), the list is sorted
ascending by distance, neighbor ids at or beyond the passage-store length are
silently skipped (removing them changes nothing and causes no error), and the
public result is the passage texts of those pairs in order. -/
theorem C4_retrieval (cfg : Config) (neighbors : List (Int × ℚ))
    (chunks : List String) (ps : List (String × ℚ))
    (h : retrievePairs cfg neighbors chunks = .ok ps) :
    (∀ p ∈ ps, p.2 < cfg.RELEVANCE_THRESHOLD)
    ∧ List.Sorted rAsc ps
    ∧ (∀ p ∈ ps, ∃ pr ∈ neighbors, pr.1 < (chunks.length : Int) ∧ pr.2 = p.2 ∧
        ∃ content, pyGetStr chunks pr.1 = .ok content ∧ p.1 = preprocess_text content)
    ∧ retrievePairs cfg (neighbors.filter
        (fun pr => decide (pr.1 < (chunks.length : Int)))) chunks =
          retrievePairs cfg neighbors chunks
    ∧ get_relevant_context cfg neighbors chunks = .ok (ps.map Prod.fst) := by
  cases hcol : collectRel cfg neighbors chunks with
  | error e =>
    rw [retrievePairs, hcol] at h
    cases h
  | ok l =>
    rw [retrievePairs, hcol] at h
    have hps : ps = List.insertionSort rAsc l := by
      cases h
      rfl
    subst hps
    refine ⟨?_, List.sorted_insertionSort rAsc l, ?_, ?_, ?_⟩
    · intro p hp
      exact (collectRel_ok_facts cfg neighbors chunks l hcol p
        ((List.mem_insertionSort rAsc).mp hp)).1
    · intro p hp
      exact (collectRel_ok_facts cfg neighbors chunks l hcol p
        ((List.mem_insertionSort rAsc).mp hp)).2
    · rw [retrievePairs, retrievePairs, collectRel_skip cfg neighbors chunks, hcol]
    · rw [get_relevant_context, retrievePairs, hcol]

/-- Witness for `C4_retrieval` at a concrete index response and store. -/
theorem C4_retrieval_witness :
    (("hello", (1 : ℚ))).2 < cfgDefault.RELEVANCE_THRESHOLD :=
  (C4_retrieval cfgDefault [((0 : Int), (1 : ℚ))] ["hello"] [("hello", (1 : ℚ))]
    rfl).1 ("hello", (1 : ℚ)) (List.mem_cons_self _ _)

/-! ## The answer pipeline -/

theorem generate_answerT_shape (cfg : Config) (w : OllamaWorld) (q : String)
    (chunks : List String) :
    generate_answerT cfg w q chunks =
      (if cleanedChunks cfg chunks = [] then (insufficientMsg, false)
       else if check_ollama_availability w then
         (match generate_ollama_answer w with
          | (some a, called) =>
            if a = "" then (generate_improved_answer cfg q (cleanedChunks cfg chunks), called)
            else (a, called)
          | (none, called) =>
            (generate_improved_answer cfg q (cleanedChunks cfg chunks), called))
       else (generate_improved_answer cfg q (cleanedChunks cfg chunks), false)) := rfl

theorem check_disabled : check_ollama_availability ⟨false, none, none⟩ = false := rfl

theorem generate_ollama_answer_fails (w : OllamaWorld) (hfail : w.genResp = none) :
    (generate_ollama_answer w).1 = none := by
  rcases w with ⟨ro, tags, gen⟩
  simp only at hfail
  subst hfail
  cases tags with
  | none => rfl
  | some ms =>
    show (match pickModel ms with
      | none => ((none : Option String), false)
      | some _ => ((none : Option String), true)).1 = none
    cases pickModel ms <;> rfl

/-- C10: The minimum-length filter is strict — a passage whose normalized
length is exactly `MIN_CHUNK_LENGTH` is excluded — and when every passage of
a non-empty retrieval result fails the filter, the pipeline returns the fixed
"insufficient relevant information" message without making a generation call
(the `Bool` component records whether the generate endpoint was called). -/
theorem C10_min_length_strict (cfg : Config) (w : OllamaWorld) (q : String)
    (chunks : List String) (hne : chunks ≠ [])
    (hall : ∀ c ∈ chunks, (preprocess_text c).length ≤ cfg.MIN_CHUNK_LENGTH) :
    generate_answerT cfg w q chunks = (insufficientMsg, false) := by
  have hclean : cleanedChunks cfg chunks = [] := by
    refine List.filter_eq_nil_iff.mpr ?_
    intro t ht
    rcases List.mem_map.mp ht with ⟨c, hc, hceq⟩
    subst hceq
    simp [not_lt.mpr (hall c hc)]
  rw [generate_answerT_shape, hclean, if_pos rfl]

/-- Witness for `C10_min_length_strict`: a single retrieved passage whose
normalized length is exactly the default `MIN_CHUNK_LENGTH = 100` is
excluded, and the pipeline short-circuits to the fixed message. -/
theorem C10_min_length_strict_witness :
    generate_answerT cfgDefault ⟨true, some ["mistral:7b"], some "x"⟩ "q"
        [String.mk (List.replicate 100 'a')] = (insufficientMsg, false) :=
  C10_min_length_strict cfgDefault ⟨true, some ["mistral:7b"], some "x"⟩ "q"
    [String.mk (List.replicate 100 'a')] (by decide) (by decide)

/-- C9: The primary generation call is gated on a model list containing a
name with `"mistral"` as a case-insensitive substring: without one the
availability check returns false, no generate call is made, and the pipeline
output is identical to running with the service disabled entirely — even
when the offered models include the generation routine's own top-priority
preferred model `llama3.2:1b`. -/
theorem C9_mistral_gate (cfg : Config) (w : OllamaWorld) (q : String)
    (chunks : List String) (ms : List String) (htags : w.tags = some ms)
    (hnom : ∀ m ∈ ms, hasSub "mistral".toList (pyLower m).toList = false) :
    check_ollama_availability w = false
    ∧ (generate_answerT cfg w q chunks).2 = false
    ∧ (generate_answerT cfg w q chunks).1 =
        (generate_answerT cfg ⟨false, none, none⟩ q chunks).1 := by
  have hchk : check_ollama_availability w = false := by
    have hany : ms.any (fun m => hasSub "mistral".toList (pyLower m).toList) = false := by
      rw [List.any_eq_false]
      intro m hm
      simp only [Bool.not_eq_true]
      exact hnom m hm
    rw [check_ollama_availability, htags]
    show (w.requestsOk &&
      ms.any (fun m => hasSub "mistral".toList (pyLower m).toList)) = false
    rw [hany, Bool.and_false]
  refine ⟨hchk, ?_, ?_⟩
  · rw [generate_answerT_shape]
    by_cases hcl : cleanedChunks cfg chunks = []
    · rw [if_pos hcl]
    · rw [if_neg hcl, hchk, if_neg (by simp)]
  · rw [generate_answerT_shape, generate_answerT_shape]
    by_cases hcl : cleanedChunks cfg chunks = []
    · rw [if_pos hcl, if_pos hcl]
    · rw [if_neg hcl, if_neg hcl, hchk, check_disabled, if_neg (by simp),
        if_neg (by simp)]

/-- Witness for `C9_mistral_gate`: a service offering only `llama3.2:1b`. -/
theorem C9_mistral_gate_witness :
    check_ollama_availability ⟨true, some ["llama3.2:1b"], some "hi"⟩ = false :=
  (C9_mistral_gate cfgDefault ⟨true, some ["llama3.2:1b"], some "hi"⟩ "q" []
    ["llama3.2:1b"] rfl (by decide)).1

/-- C6: When the generation service fails — non-success status, transport
failure or timeout, all of which the code maps to a `None` answer without
raising — the pipeline resolves to the extractive fallback, and the final
answer is byte-identical to the one produced with the service disabled
entirely on the same inputs. -/
theorem C6_service_failure_fallback (cfg : Config) (w : OllamaWorld)
    (q : String) (chunks : List String) (hfail : w.genResp = none) :
    (generate_answerT cfg w q chunks).1 =
        (generate_answerT cfg ⟨false, none, none⟩ q chunks).1
    ∧ (cleanedChunks cfg chunks ≠ [] →
        (generate_answerT cfg w q chunks).1 =
          generate_improved_answer cfg q (cleanedChunks cfg chunks)) := by
  have hmain : ∀ hcl : cleanedChunks cfg chunks ≠ [],
      (generate_answerT cfg w q chunks).1 =
        generate_improved_answer cfg q (cleanedChunks cfg chunks) := by
    intro hcl
    rw [generate_answerT_shape, if_neg hcl]
    by_cases hchk : check_ollama_availability w = true
    · rw [if_pos hchk]
      rcases hga : generate_ollama_answer w with ⟨oa, called⟩
      have hoa : oa = none := by
        have := generate_ollama_answer_fails w hfail
        rw [hga] at this
        exact this
      subst hoa
      rfl
    · rw [if_neg hchk]
  constructor
  · by_cases hcl : cleanedChunks cfg chunks = []
    · rw [generate_answerT_shape, generate_answerT_shape, if_pos hcl, if_pos hcl]
    · rw [hmain hcl, generate_answerT_shape, if_neg hcl, check_disabled,
        if_neg (by simp)]
  · exact hmain

/-- Witness for `C6_service_failure_fallback`: service reachable with a
Mistral model offered, generate call failing (e.g. HTTP 500). -/
theorem C6_service_failure_fallback_witness :
    (generate_answerT cfgDefault ⟨true, some ["mistral:7b"], none⟩ "machine learning"
        [String.mk (List.replicate 101 'a')]).1 =
      (generate_answerT cfgDefault ⟨false, none, none⟩ "machine learning"
        [String.mk (List.replicate 101 'a')]).1 :=
  (C6_service_failure_fallback cfgDefault ⟨true, some ["mistral:7b"], none⟩
    "machine learning" [String.mk (List.replicate 101 'a')] rfl).1

/-! ## The command-line surface -/

theorem mainRun_requests_ok (cfg : Config) (w : World) (argv : List String)
    (hro : w.ollama.requestsOk = true) :
    mainRun cfg w argv =
      (if argv.length ≠ 2 then ([OutLine.jsonErr "Question argument required"], 1)
       else
         match w.loadOk with
         | .error e => ([OutLine.jsonErr e], 1)
         | .ok _ =>
           match get_relevant_context cfg w.neighbors w.chunks with
           | .error e => ([OutLine.jsonErr e], 1)
           | .ok relevant =>
             ([OutLine.jsonAnswer (if relevant = [] then
                 "No relevant information found in the uploaded documents."
               else generate_answer cfg w.ollama (argv.getD 1 "") relevant)], 0)) := by
  simp only [mainRun, hro, if_true, List.nil_append]

/-- C3: One invocation writes exactly one JSON object to stdout with the
documented exit codes — except when the `requests` import fails, where the
module-level diagnostic is printed to stdout (a bare `print`, unlike every
other diagnostic, which passes `file=sys.stderr`), so stdout then carries an
extra non-JSON line ahead of the JSON object.  Conjunct 1 evaluates the
failing input; conjunct 2 proves the claimed discipline whenever the import
succeeds. -/
theorem C3_stdout_single_json :
    ((mainRun cfgDefault
        ⟨⟨false, none, none⟩,
          .error "No embeddings found. Please upload and process documents first.",
          [], []⟩ ["answer_question.py", "q"]).1 =
        [OutLine.diag reqWarnMsg,
         OutLine.jsonErr "No embeddings found. Please upload and process documents first."] ∧
      ∀ s : String,
        (mainRun cfgDefault
          ⟨⟨false, none, none⟩,
            .error "No embeddings found. Please upload and process documents first.",
            [], []⟩ ["answer_question.py", "q"]).1 ≠ [OutLine.jsonAnswer s] ∧
        (mainRun cfgDefault
          ⟨⟨false, none, none⟩,
            .error "No embeddings found. Please upload and process documents first.",
            [], []⟩ ["answer_question.py", "q"]).1 ≠ [OutLine.jsonErr s])
    ∧ (∀ (cfg : Config) (w : World) (argv : List String),
        w.ollama.requestsOk = true →
          ((∃ s, mainRun cfg w argv = ([OutLine.jsonAnswer s], 0)) ∨
           (∃ s, mainRun cfg w argv = ([OutLine.jsonErr s], 1)))
          ∧ (argv.length ≠ 2 →
              mainRun cfg w argv = ([OutLine.jsonErr "Question argument required"], 1))) := by
  constructor
  · refine ⟨rfl, fun s => ⟨fun h => ?_, fun h => ?_⟩⟩ <;>
    · rw [show (mainRun cfgDefault
          ⟨⟨false, none, none⟩,
            .error "No embeddings found. Please upload and process documents first.",
            [], []⟩ ["answer_question.py", "q"]).1 =
          [OutLine.diag reqWarnMsg,
           OutLine.jsonErr "No embeddings found. Please upload and process documents first."]
          from rfl] at h
      simp at h
  · intro cfg w argv hro
    by_cases hargv : argv.length ≠ 2
    · refine ⟨Or.inr ⟨"Question argument required", ?_⟩, fun _ => ?_⟩ <;>
        rw [mainRun_requests_ok cfg w argv hro, if_pos hargv]
    · refine ⟨?_, fun hcon => absurd hcon hargv⟩
      rw [mainRun_requests_ok cfg w argv hro, if_neg hargv]
      cases hld : w.loadOk with
      | error e =>
        right
        exact ⟨e, rfl⟩
      | ok u =>
        cases hret : get_relevant_context cfg w.neighbors w.chunks with
        | error e =>
          right
          exact ⟨e, rfl⟩
        | ok relevant =>
          left
          exact ⟨_, rfl⟩

/-- Witness for `C3_stdout_single_json` (second conjunct) at a concrete
invocation with a missing argument. -/
theorem C3_stdout_single_json_witness :
    mainRun cfgDefault
        ⟨⟨true, none, none⟩,
          .error "No embeddings found. Please upload and process documents first.",
          [], []⟩ ["answer_question.py"] =
      ([OutLine.jsonErr "Question argument required"], 1) :=
  ((C3_stdout_single_json).2 cfgDefault
    ⟨⟨true, none, none⟩,
      .error "No embeddings found. Please upload and process documents first.",
      [], []⟩ ["answer_question.py"] rfl).2 (by decide)
